import Mathlib

set_option maxHeartbeats 1000000
set_option maxRecDepth 8192

/-!
Verification of the priority skip list from kernel/skip_lists.c
(BFS scheduler skip list, bidirectional circular chains, 16 levels).

The C structure is pointer-based; we embed it shallowly as a heap
indexed by natural-number pointers.  The sentinel lives at address 0;
freshly allocated nodes receive consecutive addresses starting at 1.
The unbounded C search loop in skiplist_insert is modelled with an
explicit fuel parameter: the insert either returns the new state and
node handle, or none when the fuel is exhausted (which corresponds to
the C loop still running).
-/

/-- Maximum representable 64-bit key, 0xFFFFFFFFFFFFFFFF, the sentinel key. -/
def U64MAX : Nat := 2 ^ 64 - 1

/-- struct nodeStructure: level, key, value and the 16-entry next/prev
pointer arrays (modelled as total functions; only indices 0..15 are used). -/
structure SNode where
  level : Nat
  key : Nat
  value : Nat
  next : Nat → Nat
  prev : Nat → Nat

/-- The heap: every address holds a node structure. -/
abbrev Heap := Nat → SNode

/-- Address of the sentinel node allocated by skiplist_init. -/
def sentinelId : Nat := 0

/-- Overwrite the node stored at address x. -/
def setNode (h : Heap) (x : Nat) (n : SNode) : Heap :=
  fun y => if y = x then n else h y

/-- Write v into next[j] of the node at x. -/
def setNext (h : Heap) (x : Nat) (j : Nat) (v : Nat) : Heap :=
  setNode h x { h x with next := fun i => if i = j then v else (h x).next i }

/-- Write v into prev[j] of the node at x. -/
def setPrev (h : Heap) (x : Nat) (j : Nat) (v : Nat) : Heap :=
  setNode h x { h x with prev := fun i => if i = j then v else (h x).prev i }

/-- The sentinel as written by skiplist_init: key = 0xFFFFFFFFFFFFFFFF,
level 0, NULL value, every next/prev slot pointing to itself. -/
def sentinelNode : SNode :=
  { level := 0, key := U64MAX, value := 0
    next := fun _ => sentinelId, prev := fun _ => sentinelId }

/-- Contents of an address that was never allocated (kmalloc garbage is
modelled by this fixed node; no operation reads it before writing it). -/
def blankNode : SNode :=
  { level := 0, key := 0, value := 0
    next := fun _ => sentinelId, prev := fun _ => sentinelId }

/-- The list container plus heap: listLevel is l->level, fresh is the next
address the allocator hands out. -/
structure SkipState where
  nodes : Heap
  fresh : Nat
  listLevel : Nat

/-- State right after skiplist_init and new_skiplist: the sentinel at
address 0 with all self-loops, list level 0. -/
def initState : SkipState :=
  { nodes := fun p => if p = sentinelId then sentinelNode else blankNode
    fresh := 1
    listLevel := 0 }

/-- Loop body of randomLevel: while (randseed && !(randseed & 3)) with an
explicit fuel (first argument); the C loop runs at most 32 times on a u64. -/
def rlAux : Nat → Nat → Nat → Nat
  | 0, _, level => level
  | f + 1, randseed, level =>
    if randseed ≠ 0 ∧ randseed % 4 = 0 then rlAux f (randseed / 4) (level + 1)
    else level

/-- randomLevel from skip_lists.c: count trailing zero bit-pairs of the
seed, then clamp at MaxLevel = 15.  Fuel randseed is always enough because
the loop runs at most log4(randseed) times. -/
def randomLevel (randseed : Nat) : Nat :=
  let level := rlAux randseed randseed 0
  if level > 15 then 15 else level

/-- Inner while loop of skiplist_insert at one level:
while (q = p->next[k], q->key <= key) p = q; returns the final p, or none
when the fuel runs out (the C loop is unbounded). -/
def walkLevel (h : Heap) (key : Nat) (k : Nat) : Nat → Nat → Option Nat
  | _, 0 => none
  | p, f + 1 =>
    let q := (h p).next k
    if (h q).key ≤ key then walkLevel h key k q f else some p

/-- Outer do-while of the search in skiplist_insert: from level k down to 0,
walk right and record update[k]; the accumulator upd plays the update array. -/
def searchLoop (h : Heap) (key : Nat) (f : Nat) :
    Nat → Nat → (Nat → Nat) → Option (Nat → Nat)
  | k, p, upd =>
    match walkLevel h key k p f with
    | none => none
    | some p' =>
      let upd' := fun i => if i = k then p' else upd i
      match k with
      | 0 => some upd'
      | k' + 1 => searchLoop h key f k' p' upd'

/-- One splice step of skiplist_insert at level j:
q->next[j] = p->next[j]; p->next[j] = q; q->prev[j] = p;
q->next[j]->prev[j] = q; with every operand re-read from the current heap
exactly as the C statements do. -/
def spliceOne (h : Heap) (p q : Nat) (j : Nat) : Heap :=
  let h1 := setNext h q j ((h p).next j)
  let h2 := setNext h1 p j q
  let h3 := setPrev h2 q j p
  setPrev h3 ((h3 q).next j) j q

/-- Splice do-while of skiplist_insert: levels k down to 0, predecessor at
each level taken from the update array. -/
def spliceLevels (h : Heap) (upd : Nat → Nat) (q : Nat) : Nat → Heap
  | 0 => spliceOne h (upd 0) q 0
  | k + 1 => spliceLevels (spliceOne h (upd (k + 1)) q (k + 1)) upd q k

/-- skiplist_insert: search from l->level down, pick the random level with
the grow-by-one dirty hack, allocate, splice at levels k..0.  Returns the
new state together with the handle of the new node, or none when the fuel
does not cover the search loop. -/
def skiplist_insert (s : SkipState) (key value randseed : Nat) (f : Nat) :
    Option (SkipState × Nat) :=
  match searchLoop s.nodes key f s.listLevel sentinelId (fun _ => sentinelId) with
  | none => none
  | some upd =>
    let k0 := randomLevel randseed
    let grow := s.listLevel < k0
    let k := if grow then s.listLevel + 1 else k0
    let upd' := if grow then (fun i => if i = s.listLevel + 1 then sentinelId else upd i) else upd
    let q := s.fresh
    let h1 := setNode s.nodes q
      { level := k, key := key, value := value
        next := fun _ => q, prev := fun _ => q }
    let h2 := spliceLevels h1 upd' q k
    some ({ nodes := h2, fresh := s.fresh + 1
            listLevel := if grow then s.listLevel + 1 else s.listLevel }, q)

/-- One unlink step of skiplist_delnode at level k:
node->prev[k]->next[k] = node->next[k];
node->next[k]->prev[k] = node->prev[k]; operands re-read like the C code. -/
def unlinkOne (h : Heap) (x : Nat) (k : Nat) : Heap :=
  let h1 := setNext h ((h x).prev k) k ((h x).next k)
  setPrev h1 ((h1 x).next k) k ((h1 x).prev k)

/-- The for loop of skiplist_delnode: unlink at levels 0..m in order. -/
def unlinkUpTo (h : Heap) (x : Nat) : Nat → Heap
  | 0 => unlinkOne h x 0
  | k + 1 => unlinkOne (unlinkUpTo h x k) x (k + 1)

/-- Height shrink of skiplist_delnode:
while (header->next[m] == slnode && header->prev[m] == slnode && m > 0) m--. -/
def shrinkLevel (h : Heap) : Nat → Nat
  | 0 => 0
  | m + 1 =>
    if (h sentinelId).next (m + 1) = sentinelId ∧ (h sentinelId).prev (m + 1) = sentinelId
    then shrinkLevel h m else m + 1

/-- skiplist_delnode: unlink the node at every level 0..node->level, then
lazily shrink the list height when the node occupied the top level.
The freed node stays in the heap model but is no longer referenced. -/
def skiplist_delnode (s : SkipState) (node : Nat) : SkipState :=
  let m := (s.nodes node).level
  let h2 := unlinkUpTo s.nodes node m
  { nodes := h2
    fresh := s.fresh
    listLevel := if m = s.listLevel then shrinkLevel h2 m else s.listLevel }

/-- Follow next[k] from after the sentinel, collecting nodes until the
chain returns to the sentinel; none when the fuel runs out first. -/
def traverseNext (h : Heap) (k : Nat) : Nat → Nat → Option (List Nat)
  | _, 0 => none
  | p, f + 1 =>
    let q := (h p).next k
    if q = sentinelId then some [] else Option.map (fun l => q :: l) (traverseNext h k q f)

/-- The level-k chain of a list state, read off the pointers. -/
def chainList (s : SkipState) (k : Nat) (f : Nat) : Option (List Nat) :=
  traverseNext s.nodes k sentinelId f

/-- A node handle is linked when it occurs on the level-0 chain. -/
def Linked (s : SkipState) (e : Nat) : Prop :=
  ∃ l f, chainList s 0 f = some l ∧ e ∈ l

/-- States reachable from a fresh list by completed inserts (any u64 key)
and deletes of currently linked handles. -/
inductive Reachable : SkipState → Prop
  | init : Reachable initState
  | ins {s s' : SkipState} {q key value seed f : Nat} :
      Reachable s → key < 2 ^ 64 →
      skiplist_insert s key value seed f = some (s', q) → Reachable s'
  | del {s : SkipState} {e : Nat} :
      Reachable s → Linked s e → Reachable (skiplist_delnode s e)

/-! ### Field-level characterization of the heap writes -/

theorem setNode_apply (h : Heap) (x : Nat) (n : SNode) (y : Nat) :
    (setNode h x n) y = if y = x then n else h y := rfl

theorem setNext_next (h : Heap) (x : Nat) (j : Nat) (v : Nat) (y : Nat) (i : Nat) :
    ((setNext h x j v) y).next i = if y = x ∧ i = j then v else (h y).next i := by
  unfold setNext
  rw [setNode_apply]
  by_cases hy : y = x
  · subst hy
    by_cases hi : i = j <;> simp [hi]
  · simp [hy]

theorem setNext_prev (h : Heap) (x : Nat) (j : Nat) (v : Nat) (y : Nat) (i : Nat) :
    ((setNext h x j v) y).prev i = (h y).prev i := by
  unfold setNext
  rw [setNode_apply]
  by_cases hy : y = x
  · subst hy; simp
  · simp [hy]

theorem setNext_level (h : Heap) (x : Nat) (j : Nat) (v : Nat) (y : Nat) :
    ((setNext h x j v) y).level = (h y).level := by
  unfold setNext
  rw [setNode_apply]
  by_cases hy : y = x
  · subst hy; simp
  · simp [hy]

theorem setNext_key (h : Heap) (x : Nat) (j : Nat) (v : Nat) (y : Nat) :
    ((setNext h x j v) y).key = (h y).key := by
  unfold setNext
  rw [setNode_apply]
  by_cases hy : y = x
  · subst hy; simp
  · simp [hy]

theorem setNext_value (h : Heap) (x : Nat) (j : Nat) (v : Nat) (y : Nat) :
    ((setNext h x j v) y).value = (h y).value := by
  unfold setNext
  rw [setNode_apply]
  by_cases hy : y = x
  · subst hy; simp
  · simp [hy]

theorem setPrev_prev (h : Heap) (x : Nat) (j : Nat) (v : Nat) (y : Nat) (i : Nat) :
    ((setPrev h x j v) y).prev i = if y = x ∧ i = j then v else (h y).prev i := by
  unfold setPrev
  rw [setNode_apply]
  by_cases hy : y = x
  · subst hy
    by_cases hi : i = j <;> simp [hi]
  · simp [hy]

theorem setPrev_next (h : Heap) (x : Nat) (j : Nat) (v : Nat) (y : Nat) (i : Nat) :
    ((setPrev h x j v) y).next i = (h y).next i := by
  unfold setPrev
  rw [setNode_apply]
  by_cases hy : y = x
  · subst hy; simp
  · simp [hy]

theorem setPrev_level (h : Heap) (x : Nat) (j : Nat) (v : Nat) (y : Nat) :
    ((setPrev h x j v) y).level = (h y).level := by
  unfold setPrev
  rw [setNode_apply]
  by_cases hy : y = x
  · subst hy; simp
  · simp [hy]

theorem setPrev_key (h : Heap) (x : Nat) (j : Nat) (v : Nat) (y : Nat) :
    ((setPrev h x j v) y).key = (h y).key := by
  unfold setPrev
  rw [setNode_apply]
  by_cases hy : y = x
  · subst hy; simp
  · simp [hy]

theorem setPrev_value (h : Heap) (x : Nat) (j : Nat) (v : Nat) (y : Nat) :
    ((setPrev h x j v) y).value = (h y).value := by
  unfold setPrev
  rw [setNode_apply]
  by_cases hy : y = x
  · subst hy; simp
  · simp [hy]

theorem spliceOne_next (h : Heap) (p q : Nat) (j : Nat) (hpq : p ≠ q) (y : Nat) (i : Nat) :
    ((spliceOne h p q j) y).next i =
      if i = j then
        (if y = q then (h p).next j else if y = p then q else (h y).next i)
      else (h y).next i := by
  unfold spliceOne
  simp only [setPrev_next, setNext_next, setNext_prev, setPrev_prev]
  by_cases hi : i = j
  all_goals by_cases hyq : y = q
  all_goals by_cases hyp : y = p
  all_goals simp_all

theorem spliceOne_prev (h : Heap) (p q : Nat) (j : Nat) (hpq : p ≠ q)
    (htq : (h p).next j ≠ q) (y : Nat) (i : Nat) :
    ((spliceOne h p q j) y).prev i =
      if i = j then
        (if y = q then p else if y = (h p).next j then q else (h y).prev i)
      else (h y).prev i := by
  unfold spliceOne
  have ht : ((setPrev (setNext (setNext h q j ((h p).next j)) p j q) q j p) q).next j
      = (h p).next j := by
    simp [setPrev_next, setNext_next, hpq.symm]
  rw [ht]
  simp only [setPrev_prev, setNext_prev]
  by_cases hi : i = j
  all_goals by_cases hyq : y = q
  all_goals by_cases hyt : y = (h p).next j
  all_goals simp_all

theorem spliceOne_level (h : Heap) (p q : Nat) (j : Nat) (y : Nat) :
    ((spliceOne h p q j) y).level = (h y).level := by
  unfold spliceOne
  simp [setPrev_level, setNext_level]

theorem spliceOne_key (h : Heap) (p q : Nat) (j : Nat) (y : Nat) :
    ((spliceOne h p q j) y).key = (h y).key := by
  unfold spliceOne
  simp [setPrev_key, setNext_key]

theorem spliceOne_value (h : Heap) (p q : Nat) (j : Nat) (y : Nat) :
    ((spliceOne h p q j) y).value = (h y).value := by
  unfold spliceOne
  simp [setPrev_value, setNext_value]

theorem spliceLevels_level (h : Heap) (upd : Nat → Nat) (q : Nat) (k : Nat) (y : Nat) :
    ((spliceLevels h upd q k) y).level = (h y).level := by
  induction k generalizing h with
  | zero => simp [spliceLevels, spliceOne_level]
  | succ k ih => simp [spliceLevels, ih, spliceOne_level]

theorem spliceLevels_key (h : Heap) (upd : Nat → Nat) (q : Nat) (k : Nat) (y : Nat) :
    ((spliceLevels h upd q k) y).key = (h y).key := by
  induction k generalizing h with
  | zero => simp [spliceLevels, spliceOne_key]
  | succ k ih => simp [spliceLevels, ih, spliceOne_key]

theorem spliceLevels_value (h : Heap) (upd : Nat → Nat) (q : Nat) (k : Nat) (y : Nat) :
    ((spliceLevels h upd q k) y).value = (h y).value := by
  induction k generalizing h with
  | zero => simp [spliceLevels, spliceOne_value]
  | succ k ih => simp [spliceLevels, ih, spliceOne_value]

theorem spliceLevels_next (h : Heap) (upd : Nat → Nat) (q : Nat) (k : Nat)
    (H : ∀ j, j ≤ k → upd j ≠ q) (y : Nat) (i : Nat) :
    ((spliceLevels h upd q k) y).next i =
      if i ≤ k then
        (if y = q then (h (upd i)).next i else if y = upd i then q else (h y).next i)
      else (h y).next i := by
  induction k generalizing h with
  | zero =>
    simp only [spliceLevels]
    rw [spliceOne_next h (upd 0) q 0 (H 0 le_rfl)]
    by_cases hi : i = 0
    · subst hi; simp
    · simp [hi, Nat.pos_of_ne_zero hi]
  | succ k ih =>
    simp only [spliceLevels]
    rw [ih (spliceOne h (upd (k + 1)) q (k + 1))
        (fun j hj => H j (Nat.le_succ_of_le hj))]
    by_cases hik : i ≤ k
    · have hik1 : i ≤ k + 1 := Nat.le_succ_of_le hik
      have hne : i ≠ k + 1 := by omega
      rw [if_pos hik, if_pos hik1]
      rw [spliceOne_next h (upd (k + 1)) q (k + 1) (H (k + 1) le_rfl)]
      rw [spliceOne_next h (upd (k + 1)) q (k + 1) (H (k + 1) le_rfl)]
      simp [hne]
    · rw [if_neg hik]
      rw [spliceOne_next h (upd (k + 1)) q (k + 1) (H (k + 1) le_rfl)]
      by_cases hik1 : i = k + 1
      · subst hik1
        simp
      · have : ¬ i ≤ k + 1 := by omega
        simp [hik1, this]

theorem spliceLevels_prev (h : Heap) (upd : Nat → Nat) (q : Nat) (k : Nat)
    (H : ∀ j, j ≤ k → upd j ≠ q) (H2 : ∀ j, j ≤ k → (h (upd j)).next j ≠ q)
    (y : Nat) (i : Nat) :
    ((spliceLevels h upd q k) y).prev i =
      if i ≤ k then
        (if y = q then upd i else if y = (h (upd i)).next i then q else (h y).prev i)
      else (h y).prev i := by
  induction k generalizing h with
  | zero =>
    simp only [spliceLevels]
    rw [spliceOne_prev h (upd 0) q 0 (H 0 le_rfl) (H2 0 le_rfl)]
    by_cases hi : i = 0
    · subst hi; simp
    · simp [hi, Nat.pos_of_ne_zero hi]
  | succ k ih =>
    simp only [spliceLevels]
    have Hsp : ∀ j, j ≤ k →
        ((spliceOne h (upd (k + 1)) q (k + 1)) (upd j)).next j = (h (upd j)).next j := by
      intro j hj
      rw [spliceOne_next h (upd (k + 1)) q (k + 1) (H (k + 1) le_rfl)]
      have : j ≠ k + 1 := by omega
      simp [this]
    rw [ih (spliceOne h (upd (k + 1)) q (k + 1))
        (fun j hj => H j (Nat.le_succ_of_le hj))
        (fun j hj => by rw [Hsp j hj]; exact H2 j (Nat.le_succ_of_le hj))]
    by_cases hik : i ≤ k
    · have hik1 : i ≤ k + 1 := Nat.le_succ_of_le hik
      rw [if_pos hik, if_pos hik1, Hsp i hik]
      have hne : i ≠ k + 1 := by omega
      rw [spliceOne_prev h (upd (k + 1)) q (k + 1) (H (k + 1) le_rfl) (H2 (k + 1) le_rfl)]
      simp [hne]
    · rw [if_neg hik]
      rw [spliceOne_prev h (upd (k + 1)) q (k + 1) (H (k + 1) le_rfl) (H2 (k + 1) le_rfl)]
      by_cases hik1 : i = k + 1
      · subst hik1
        simp
      · have : ¬ i ≤ k + 1 := by omega
        simp [hik1, this]

theorem unlinkOne_next (h : Heap) (x : Nat) (k : Nat) (y : Nat) (i : Nat) :
    ((unlinkOne h x k) y).next i =
      if i = k ∧ y = (h x).prev k then (h x).next k else (h y).next i := by
  unfold unlinkOne
  rw [setPrev_next, setNext_next]
  by_cases hc : i = k ∧ y = (h x).prev k
  · rw [if_pos hc, if_pos (And.intro hc.2 hc.1)]
  · rw [if_neg hc, if_neg (fun hc2 => hc (And.intro hc2.2 hc2.1))]

theorem unlinkOne_prev (h : Heap) (x : Nat) (k : Nat) (y : Nat) (i : Nat) :
    ((unlinkOne h x k) y).prev i =
      if i = k ∧ y = (h x).next k then (h x).prev k else (h y).prev i := by
  unfold unlinkOne
  have ht : ((setNext h ((h x).prev k) k ((h x).next k)) x).next k = (h x).next k := by
    rw [setNext_next]
    exact ite_self _
  have hw : ((setNext h ((h x).prev k) k ((h x).next k)) x).prev k = (h x).prev k := by
    rw [setNext_prev]
  rw [ht, hw]
  rw [setPrev_prev, setNext_prev]
  by_cases hc : i = k ∧ y = (h x).next k
  · rw [if_pos hc, if_pos (And.intro hc.2 hc.1)]
  · rw [if_neg hc, if_neg (fun hc2 => hc (And.intro hc2.2 hc2.1))]

theorem unlinkOne_level (h : Heap) (x : Nat) (k : Nat) (y : Nat) :
    ((unlinkOne h x k) y).level = (h y).level := by
  unfold unlinkOne
  simp [setPrev_level, setNext_level]

theorem unlinkOne_key (h : Heap) (x : Nat) (k : Nat) (y : Nat) :
    ((unlinkOne h x k) y).key = (h y).key := by
  unfold unlinkOne
  simp [setPrev_key, setNext_key]

theorem unlinkOne_value (h : Heap) (x : Nat) (k : Nat) (y : Nat) :
    ((unlinkOne h x k) y).value = (h y).value := by
  unfold unlinkOne
  simp [setPrev_value, setNext_value]

theorem unlinkUpTo_level (h : Heap) (x : Nat) (m : Nat) (y : Nat) :
    ((unlinkUpTo h x m) y).level = (h y).level := by
  induction m with
  | zero => simp [unlinkUpTo, unlinkOne_level]
  | succ m ih => simp [unlinkUpTo, unlinkOne_level, ih]

theorem unlinkUpTo_key (h : Heap) (x : Nat) (m : Nat) (y : Nat) :
    ((unlinkUpTo h x m) y).key = (h y).key := by
  induction m with
  | zero => simp [unlinkUpTo, unlinkOne_key]
  | succ m ih => simp [unlinkUpTo, unlinkOne_key, ih]

theorem unlinkUpTo_value (h : Heap) (x : Nat) (m : Nat) (y : Nat) :
    ((unlinkUpTo h x m) y).value = (h y).value := by
  induction m with
  | zero => simp [unlinkUpTo, unlinkOne_value]
  | succ m ih => simp [unlinkUpTo, unlinkOne_value, ih]

theorem unlinkUpTo_next_prev (h : Heap) (x : Nat) (m : Nat) :
    ∀ (y : Nat) (i : Nat),
      (((unlinkUpTo h x m) y).next i =
        if i ≤ m ∧ y = (h x).prev i then (h x).next i else (h y).next i) ∧
      (((unlinkUpTo h x m) y).prev i =
        if i ≤ m ∧ y = (h x).next i then (h x).prev i else (h y).prev i) := by
  induction m with
  | zero =>
    intro y i
    constructor
    · simp only [unlinkUpTo]
      rw [unlinkOne_next]
      by_cases hi : i = 0
      · simp [hi]
      · simp [hi, Nat.pos_of_ne_zero hi]
    · simp only [unlinkUpTo]
      rw [unlinkOne_prev]
      by_cases hi : i = 0
      · simp [hi]
      · simp [hi, Nat.pos_of_ne_zero hi]
  | succ m ih =>
    intro y i
    have hxp : ((unlinkUpTo h x m) x).prev (m + 1) = (h x).prev (m + 1) := by
      rw [(ih x (m + 1)).2]
      simp
    have hxn : ((unlinkUpTo h x m) x).next (m + 1) = (h x).next (m + 1) := by
      rw [(ih x (m + 1)).1]
      simp
    constructor
    · simp only [unlinkUpTo]
      rw [unlinkOne_next, hxp, hxn, (ih y i).1]
      by_cases hi : i = m + 1
      · subst hi
        have h1 : ¬ (m + 1 ≤ m) := by omega
        by_cases hy : y = (h x).prev (m + 1) <;> simp_all
      · by_cases him : i ≤ m
        · have him1 : i ≤ m + 1 := by omega
          simp [hi, him, him1]
        · have him1 : ¬ (i ≤ m + 1) := by omega
          simp [hi, him, him1]
    · simp only [unlinkUpTo]
      rw [unlinkOne_prev, hxp, hxn, (ih y i).2]
      by_cases hi : i = m + 1
      · subst hi
        have h1 : ¬ (m + 1 ≤ m) := by omega
        by_cases hy : y = (h x).next (m + 1) <;> simp_all
      · by_cases him : i ≤ m
        · have him1 : i ≤ m + 1 := by omega
          simp [hi, him, him1]
        · have him1 : ¬ (i ≤ m + 1) := by omega
          simp [hi, him, him1]

theorem unlinkUpTo_next (h : Heap) (x : Nat) (m : Nat) (y : Nat) (i : Nat) :
    ((unlinkUpTo h x m) y).next i =
      if i ≤ m ∧ y = (h x).prev i then (h x).next i else (h y).next i :=
  (unlinkUpTo_next_prev h x m y i).1

theorem unlinkUpTo_prev (h : Heap) (x : Nat) (m : Nat) (y : Nat) (i : Nat) :
    ((unlinkUpTo h x m) y).prev i =
      if i ≤ m ∧ y = (h x).next i then (h x).prev i else (h y).prev i :=
  (unlinkUpTo_next_prev h x m y i).2

/-! ### Abstract view: per-level chains as lists and the list invariant -/

/-- Nodes of es whose level reaches k: the members of the level-k chain,
in level-0 chain order. -/
def nodesAtLevel (h : Heap) (k : Nat) (es : List Nat) : List Nat :=
  es.filter (fun e => decide (k ≤ (h e).level))

/-- Maximum level field over a list of nodes, 0 when empty. -/
def maxLevel (h : Heap) (es : List Nat) : Nat :=
  es.foldr (fun e m => max ((h e).level) m) 0

/-- a is followed by b on the level-k next chain. -/
def nextRel (h : Heap) (k : Nat) (a b : Nat) : Prop := (h a).next k = b

/-- a is followed by b on the level-k chain according to b's prev pointer. -/
def prevRel (h : Heap) (k : Nat) (a b : Nat) : Prop := (h b).prev k = a

/-- The full circular walk of a level: sentinel, the chain nodes, sentinel. -/
def cyc (l : List Nat) : List Nat := sentinelId :: (l ++ [sentinelId])

/-- The next pointers at level k trace the circular chain l. -/
def chainNext (h : Heap) (k : Nat) (l : List Nat) : Prop :=
  List.Chain' (nextRel h k) (cyc l)

/-- The prev pointers at level k trace the circular chain l backwards. -/
def chainPrev (h : Heap) (k : Nat) (l : List Nat) : Prop :=
  List.Chain' (prevRel h k) (cyc l)

/-- Structural invariant of a skip list state: es lists the linked nodes in
level-0 chain order; all sixteen levels are circular doubly linked chains
holding exactly the nodes whose level reaches them, keys are sorted and
below the sentinel key, and the list level is the maximal node level. -/
structure Good (s : SkipState) (es : List Nat) : Prop where
  nodup : es.Nodup
  noSent : sentinelId ∉ es
  bounded : ∀ e ∈ es, 0 < e ∧ e < s.fresh
  freshPos : 0 < s.fresh
  lvl15 : ∀ e ∈ es, (s.nodes e).level ≤ 15
  keyLt : ∀ e ∈ es, (s.nodes e).key < U64MAX
  allKeys : ∀ x, (s.nodes x).key ≤ U64MAX
  sentKey : (s.nodes sentinelId).key = U64MAX
  sentLevel : (s.nodes sentinelId).level = 0
  sentValue : (s.nodes sentinelId).value = 0
  sorted : List.Pairwise (fun a b => (s.nodes a).key ≤ (s.nodes b).key) es
  lvlEq : s.listLevel = maxLevel s.nodes es
  chainsN : ∀ k, k ≤ 15 → chainNext s.nodes k (nodesAtLevel s.nodes k es)
  chainsP : ∀ k, k ≤ 15 → chainPrev s.nodes k (nodesAtLevel s.nodes k es)

theorem mem_nodesAtLevel {h : Heap} {k : Nat} {es : List Nat} {e : Nat} :
    e ∈ nodesAtLevel h k es ↔ e ∈ es ∧ k ≤ (h e).level := by
  simp [nodesAtLevel]

theorem nodesAtLevel_zero (h : Heap) (es : List Nat) :
    nodesAtLevel h 0 es = es := by
  simp [nodesAtLevel]

theorem nodesAtLevel_append (h : Heap) (k : Nat) (l1 l2 : List Nat) :
    nodesAtLevel h k (l1 ++ l2) = nodesAtLevel h k l1 ++ nodesAtLevel h k l2 := by
  simp [nodesAtLevel]

theorem nodesAtLevel_sublist (h : Heap) (k : Nat) (es : List Nat) :
    List.Sublist (nodesAtLevel h k es) es :=
  List.filter_sublist es

theorem nodesAtLevel_mono (h : Heap) {j k : Nat} (hjk : j ≤ k) (es : List Nat) :
    List.Sublist (nodesAtLevel h k es) (nodesAtLevel h j es) := by
  induction es with
  | nil => simp [nodesAtLevel]
  | cons a t ih =>
    by_cases hk : k ≤ (h a).level
    · have hj : j ≤ (h a).level := le_trans hjk hk
      simpa [nodesAtLevel, hk, hj] using List.Sublist.cons₂ a ih
    · by_cases hj : j ≤ (h a).level
      · simpa [nodesAtLevel, hk, hj] using List.Sublist.cons a ih
      · simpa [nodesAtLevel, hk, hj] using ih

theorem nodesAtLevel_congr {h h' : Heap} {es : List Nat} (k : Nat)
    (he : ∀ e ∈ es, (h' e).level = (h e).level) :
    nodesAtLevel h' k es = nodesAtLevel h k es := by
  induction es with
  | nil => rfl
  | cons a t ih =>
    have ha := he a (List.mem_cons_self a t)
    have ht : ∀ e ∈ t, (h' e).level = (h e).level :=
      fun e hm => he e (List.mem_cons_of_mem a hm)
    have ih2 := ih ht
    simp only [nodesAtLevel] at ih2
    by_cases hk : k ≤ (h a).level
    · simp [nodesAtLevel, hk, ha, ih2]
    · simp [nodesAtLevel, hk, ha, ih2]

theorem maxLevel_nil (h : Heap) : maxLevel h [] = 0 := rfl

theorem maxLevel_cons (h : Heap) (a : Nat) (t : List Nat) :
    maxLevel h (a :: t) = max ((h a).level) (maxLevel h t) := rfl

theorem le_maxLevel_of_mem {h : Heap} {es : List Nat} {e : Nat} (hm : e ∈ es) :
    (h e).level ≤ maxLevel h es := by
  induction es with
  | nil => cases hm
  | cons a t ih =>
    rcases List.mem_cons.mp hm with rfl | hm'
    · exact le_max_left _ _
    · exact le_trans (ih hm') (le_max_right _ _)

theorem maxLevel_le {h : Heap} {es : List Nat} {n : Nat}
    (hb : ∀ e ∈ es, (h e).level ≤ n) : maxLevel h es ≤ n := by
  induction es with
  | nil => exact Nat.zero_le n
  | cons a t ih =>
    rw [maxLevel_cons]
    exact max_le (hb a (List.mem_cons_self a t))
      (ih fun e hm => hb e (List.mem_cons_of_mem a hm))

theorem maxLevel_attained {h : Heap} {es : List Nat} (hne : es ≠ []) :
    ∃ e ∈ es, (h e).level = maxLevel h es := by
  induction es with
  | nil => exact absurd rfl hne
  | cons a t ih =>
    cases t with
    | nil => exact ⟨a, List.mem_cons_self _ _, by simp [maxLevel_cons, maxLevel_nil]⟩
    | cons b t2 =>
      rcases ih (by simp) with ⟨e, hm, he⟩
      rw [maxLevel_cons]
      rcases le_total ((h a).level) (maxLevel h (b :: t2)) with hle | hle
      · exact ⟨e, List.mem_cons_of_mem a hm, by rw [he, max_eq_right hle]⟩
      · exact ⟨a, List.mem_cons_self _ _, by rw [max_eq_left hle]⟩

theorem maxLevel_congr {h h' : Heap} {es : List Nat}
    (he : ∀ e ∈ es, (h' e).level = (h e).level) :
    maxLevel h' es = maxLevel h es := by
  induction es with
  | nil => rfl
  | cons a t ih =>
    rw [maxLevel_cons, maxLevel_cons, he a (List.mem_cons_self a t),
      ih fun e hm => he e (List.mem_cons_of_mem a hm)]

/-- The level-k chain is empty exactly when no linked node reaches level k. -/
theorem nodesAtLevel_eq_nil_iff {h : Heap} {k : Nat} {es : List Nat} :
    nodesAtLevel h k es = [] ↔ ∀ e ∈ es, (h e).level < k := by
  constructor
  · intro hnil e hm
    by_contra hlt
    have : e ∈ nodesAtLevel h k es := mem_nodesAtLevel.mpr ⟨hm, Nat.le_of_not_lt hlt⟩
    rw [hnil] at this
    cases this
  · intro hb
    rcases (List.eq_nil_or_concat (nodesAtLevel h k es)) with hnil | ⟨l, e, hcat⟩
    · exact hnil
    · exfalso
      have : e ∈ nodesAtLevel h k es := by rw [hcat]; simp
      rcases mem_nodesAtLevel.mp this with ⟨hm, hk⟩
      exact Nat.not_lt.mpr hk (hb e hm)

/-! ### The search walk -/

theorem walkLevel_succ (h : Heap) (key k : Nat) (p : Nat) (f : Nat) :
    walkLevel h key k p (f + 1) =
      if (h ((h p).next k)).key ≤ key then walkLevel h key k ((h p).next k) f
      else some p := rfl

theorem walkLevel_mono {h : Heap} {key k : Nat} :
    ∀ {f p r}, walkLevel h key k p f = some r →
      walkLevel h key k p (f + 1) = some r := by
  intro f
  induction f with
  | zero => intro p r hc; cases hc
  | succ f ih =>
    intro p r hc
    rw [walkLevel_succ] at hc
    rw [walkLevel_succ]
    by_cases hcond : (h ((h p).next k)).key ≤ key
    · rw [if_pos hcond] at hc
      rw [if_pos hcond]
      exact ih hc
    · rw [if_neg hcond] at hc
      rw [if_neg hcond]
      exact hc

theorem walkLevel_mono_le {h : Heap} {key k : Nat} {f f' : Nat} {p r : Nat}
    (hle : f ≤ f') (hs : walkLevel h key k p f = some r) :
    walkLevel h key k p f' = some r := by
  induction hle with
  | refl => exact hs
  | step _ ih => exact walkLevel_mono ih

theorem walkLevel_none {h : Heap} {key k : Nat} (hall : ∀ x, (h x).key ≤ key) :
    ∀ (f : Nat) (p : Nat), walkLevel h key k p f = none := by
  intro f
  induction f with
  | zero => intro p; rfl
  | succ f ih =>
    intro p
    rw [walkLevel_succ, if_pos (hall _)]
    exact ih _

theorem walkLevel_path {h : Heap} {key k : Nat} :
    ∀ (t1 : List Nat) (p nxt : Nat) (f : Nat),
      List.Chain' (nextRel h k) (p :: (t1 ++ [nxt])) →
      (∀ e ∈ t1, (h e).key ≤ key) →
      ¬ ((h nxt).key ≤ key) →
      t1.length < f →
      walkLevel h key k p f = some (t1.getLastD p) := by
  intro t1
  induction t1 with
  | nil =>
    intro p nxt f hch _ hnxt hf
    rcases Nat.exists_eq_add_of_lt hf with ⟨f', rfl⟩
    have hstep : (h p).next k = nxt := by
      rcases hch with _ | ⟨hrel, _⟩
      exact hrel
    rw [walkLevel_succ, hstep, if_neg hnxt]
    rfl
  | cons a t ih =>
    intro p nxt f hch hkeys hnxt hf
    rcases Nat.exists_eq_add_of_lt hf with ⟨f', hfeq⟩
    subst hfeq
    have hstep : (h p).next k = a := by
      rcases hch with _ | ⟨hrel, _⟩
      exact hrel
    have htail : List.Chain' (nextRel h k) (a :: (t ++ [nxt])) := by
      rcases hch with _ | ⟨_, htl⟩
      exact htl
    rw [walkLevel_succ, hstep,
      if_pos (hkeys a (List.mem_cons_self _ _))]
    have hlen : t.length < t.length + 1 + f' := by omega
    have := ih a nxt (t.length + 1 + f') htail
      (fun e hm => hkeys e (List.mem_cons_of_mem a hm)) hnxt hlen
    have hle : t.length + 1 + f' ≤ t.length + 1 + f' := le_rfl
    rw [List.getLastD_cons]
    exact walkLevel_mono_le (by simp) this

/-- Splitting off the front of an append-with-cons decomposition. -/
theorem sub_of_cons_eq_append_cons {d p : Nat} :
    ∀ {X l Y : List Nat}, d :: l = X ++ p :: Y → ∀ e ∈ Y, e ∈ l := by
  intro X l Y heq e he
  cases X with
  | nil =>
    rw [List.nil_append] at heq
    simp only [List.cons.injEq] at heq
    rw [heq.2]
    exact he
  | cons x X2 =>
    rw [List.cons_append] at heq
    simp only [List.cons.injEq] at heq
    rw [heq.2]
    exact List.mem_append_right X2 (List.mem_cons_of_mem p he)

theorem getLastD_append_cons :
    ∀ (X : List Nat) (d p : Nat) (Y : List Nat),
      (X ++ p :: Y).getLastD d = Y.getLastD p := by
  intro X
  induction X with
  | nil => intro d p Y; exact List.getLastD_cons d p Y
  | cons x X2 ih =>
    intro d p Y
    rw [List.cons_append, List.getLastD_cons]
    exact ih x p Y

theorem getLastD_mem (l : List Nat) (d : Nat) : l.getLastD d ∈ d :: l := by
  induction l generalizing d with
  | nil => exact List.mem_cons_self _ _
  | cons a t ih =>
    rw [List.getLastD_cons]
    rcases List.mem_cons.mp (ih a) with he | he
    · rw [he]; exact List.mem_cons_of_mem d (List.mem_cons_self _ _)
    · exact List.mem_cons_of_mem d (List.mem_cons_of_mem a he)

/-- The per-level walk of skiplist_insert lands on the last chain node whose
key is at most the target, the sentinel when there is none: full statement
over a decomposed circular chain. -/
theorem walkLevel_chain {h : Heap} {key k : Nat} {CA CB : List Nat} {p : Nat} {f : Nat}
    (hch : chainNext h k (CA ++ CB))
    (hA : ∀ e ∈ CA, (h e).key ≤ key)
    (hB : ∀ e ∈ CB, ¬ ((h e).key ≤ key))
    (hsent : ¬ ((h sentinelId).key ≤ key))
    (hp : p ∈ sentinelId :: CA)
    (hf : (CA ++ CB).length < f) :
    walkLevel h key k p f = some (CA.getLastD sentinelId) := by
  rcases List.append_of_mem hp with ⟨X, Y, hXY⟩
  have hYsub : ∀ e ∈ Y, e ∈ CA := sub_of_cons_eq_append_cons hXY
  have hbig : List.Chain' (nextRel h k) (X ++ (p :: (Y ++ (CB ++ [sentinelId])))) := by
    have hc := hch
    unfold chainNext cyc at hc
    have heq : sentinelId :: ((CA ++ CB) ++ [sentinelId])
        = X ++ (p :: (Y ++ (CB ++ [sentinelId]))) := by
      have h0 : sentinelId :: ((CA ++ CB) ++ [sentinelId])
          = (sentinelId :: CA) ++ (CB ++ [sentinelId]) := by simp
      rw [h0, hXY]
      simp
    rw [heq] at hc
    exact hc
  have hsuf : List.Chain' (nextRel h k) (p :: (Y ++ (CB ++ [sentinelId]))) :=
    (List.chain'_append.mp hbig).2.1
  have hYlen : Y.length ≤ CA.length := by
    have hlen := congrArg List.length hXY
    simp at hlen
    omega
  have hres : Y.getLastD p = CA.getLastD sentinelId := by
    have h1 : (sentinelId :: CA).getLastD sentinelId = CA.getLastD sentinelId :=
      List.getLastD_cons _ _ _
    have h2 : (X ++ p :: Y).getLastD sentinelId = Y.getLastD p :=
      getLastD_append_cons X sentinelId p Y
    rw [← h1, hXY, h2]
  cases CB with
  | nil =>
    have hpath := walkLevel_path Y p sentinelId f (by simpa using hsuf)
      (fun e he => hA e (hYsub e he)) hsent (by simp at hf; omega)
    rw [hpath, hres]
  | cons b CB2 =>
    have hsplit : p :: (Y ++ ((b :: CB2) ++ [sentinelId]))
        = (p :: (Y ++ [b])) ++ (CB2 ++ [sentinelId]) := by simp
    have hpre : List.Chain' (nextRel h k) (p :: (Y ++ [b])) := by
      rw [hsplit] at hsuf
      exact (List.chain'_append.mp hsuf).1
    have hpath := walkLevel_path Y p b f hpre
      (fun e he => hA e (hYsub e he)) (hB b (List.mem_cons_self _ _))
      (by simp at hf; omega)
    rw [hpath, hres]

/-! ### Search specification -/

/-- Boolean test used by the search: next key at most the target key. -/
def leKeyB (h : Heap) (key : Nat) : Nat → Bool :=
  fun e => decide ((h e).key ≤ key)

/-- Linked nodes with key at most the target, in chain order. -/
def takeLe (h : Heap) (key : Nat) (es : List Nat) : List Nat :=
  es.takeWhile (leKeyB h key)

/-- Linked nodes after the insertion point. -/
def dropLe (h : Heap) (key : Nat) (es : List Nat) : List Nat :=
  es.dropWhile (leKeyB h key)

/-- The predecessor recorded by the search at level j: the last level-j node
with key at most the target, the sentinel when none exists. -/
def updSpec (h : Heap) (key : Nat) (es : List Nat) (j : Nat) : Nat :=
  (nodesAtLevel h j (takeLe h key es)).getLastD sentinelId

/-- The node that follows the recorded predecessor at level j. -/
def succSpec (h : Heap) (key : Nat) (es : List Nat) (j : Nat) : Nat :=
  (nodesAtLevel h j (dropLe h key es)).headD sentinelId

/-- The level that skiplist_insert assigns to the new node. -/
def insLevel (s : SkipState) (seed : Nat) : Nat :=
  if s.listLevel < randomLevel seed then s.listLevel + 1 else randomLevel seed

theorem takeLe_append_dropLe (h : Heap) (key : Nat) (es : List Nat) :
    takeLe h key es ++ dropLe h key es = es := by
  unfold takeLe dropLe
  exact List.takeWhile_append_dropWhile _ _

theorem mem_takeLe_le {h : Heap} {key : Nat} {es : List Nat} {e : Nat}
    (hm : e ∈ takeLe h key es) : (h e).key ≤ key := by
  have := List.mem_takeWhile_imp hm
  simpa [leKeyB] using this

theorem mem_dropLe_gt {h : Heap} {key : Nat} :
    ∀ {es : List Nat},
      List.Pairwise (fun a b => (h a).key ≤ (h b).key) es →
      ∀ e ∈ dropLe h key es, ¬ ((h e).key ≤ key) := by
  intro es
  induction es with
  | nil => intro _ e he; cases he
  | cons a t ih =>
    intro hp e he
    rcases List.pairwise_cons.mp hp with ⟨ha, ht⟩
    by_cases hcond : (h a).key ≤ key
    · have : dropLe h key (a :: t) = dropLe h key t := by
        simp [dropLe, List.dropWhile, leKeyB, hcond]
      rw [this] at he
      exact ih ht e he
    · have : dropLe h key (a :: t) = a :: t := by
        simp [dropLe, List.dropWhile, leKeyB, hcond]
      rw [this] at he
      rcases List.mem_cons.mp he with rfl | he2
      · exact hcond
      · intro habs
        exact hcond (le_trans (ha e he2) habs)

theorem getLast?_cons_eq (d : Nat) (l : List Nat) :
    (d :: l).getLast? = some (l.getLastD d) := by
  induction l generalizing d with
  | nil => rfl
  | cons a t ih => rw [List.getLast?_cons_cons, ih, List.getLastD_cons]

theorem head?_append_singleton (l : List Nat) (d : Nat) :
    (l ++ [d]).head? = some (l.headD d) := by
  cases l with
  | nil => rfl
  | cons a t => rfl

/-- Transfer a next chain to a heap that agrees on every non-final node. -/
theorem chain'_next_congr {h h2 : Heap} {k : Nat} :
    ∀ {l : List Nat}, List.Chain' (nextRel h k) l →
      (∀ a ∈ l.dropLast, (h2 a).next k = (h a).next k) →
      List.Chain' (nextRel h2 k) l := by
  intro l
  induction l with
  | nil => intro _ _; exact List.chain'_nil
  | cons a t ih =>
    cases t with
    | nil => intro _ _; simp
    | cons b t2 =>
      intro hch hagree
      rcases List.chain'_cons.mp hch with ⟨hab, htl⟩
      refine List.chain'_cons.mpr ⟨?_, ?_⟩
      · show (h2 a).next k = b
        rw [hagree a (by simp), hab]
      · exact ih htl (fun x hx => hagree x (by
          rw [List.dropLast_cons₂]
          exact List.mem_cons_of_mem a hx))

/-- Transfer a prev chain to a heap that agrees on every non-initial node. -/
theorem chain'_prev_congr {h h2 : Heap} {k : Nat} :
    ∀ {l : List Nat}, List.Chain' (prevRel h k) l →
      (∀ b ∈ l.tail, (h2 b).prev k = (h b).prev k) →
      List.Chain' (prevRel h2 k) l := by
  intro l
  induction l with
  | nil => intro _ _; exact List.chain'_nil
  | cons a t ih =>
    cases t with
    | nil => intro _ _; simp
    | cons b t2 =>
      intro hch hagree
      rcases List.chain'_cons.mp hch with ⟨hab, htl⟩
      refine List.chain'_cons.mpr ⟨?_, ?_⟩
      · show (h2 b).prev k = a
        rw [hagree b (by simp), hab]
      · exact ih htl (fun x hx => hagree x (by
          exact List.mem_cons_of_mem b hx))

theorem walk_updSpec {h : Heap} {key : Nat} {es : List Nat}
    (hsorted : List.Pairwise (fun a b => (h a).key ≤ (h b).key) es)
    (hsent : ¬ ((h sentinelId).key ≤ key))
    {k : Nat} (hchk : chainNext h k (nodesAtLevel h k es))
    {p : Nat} {f : Nat}
    (hp : p ∈ sentinelId :: nodesAtLevel h k (takeLe h key es))
    (hf : es.length < f) :
    walkLevel h key k p f = some (updSpec h key es k) := by
  have hsplit : nodesAtLevel h k es
      = nodesAtLevel h k (takeLe h key es) ++ nodesAtLevel h k (dropLe h key es) := by
    conv_lhs => rw [← takeLe_append_dropLe h key es]
    exact nodesAtLevel_append h k _ _
  rw [hsplit] at hchk
  have hflen : (nodesAtLevel h k (takeLe h key es)
      ++ nodesAtLevel h k (dropLe h key es)).length < f := by
    rw [← nodesAtLevel_append h k, takeLe_append_dropLe]
    exact lt_of_le_of_lt (List.Sublist.length_le (nodesAtLevel_sublist h k es)) hf
  exact walkLevel_chain hchk
    (fun e he => mem_takeLe_le ((nodesAtLevel_sublist h k _).subset he))
    (fun e he => mem_dropLe_gt hsorted e ((nodesAtLevel_sublist h k _).subset he))
    hsent hp hflen

theorem searchLoop_spec {h : Heap} {key : Nat} {es : List Nat} {f : Nat}
    (hsorted : List.Pairwise (fun a b => (h a).key ≤ (h b).key) es)
    (hsent : ¬ ((h sentinelId).key ≤ key))
    (hch : ∀ k, k ≤ 15 → chainNext h k (nodesAtLevel h k es))
    (hf : es.length < f) :
    ∀ (k : Nat), k ≤ 15 → ∀ (p : Nat) (upd0 : Nat → Nat),
      p ∈ sentinelId :: nodesAtLevel h k (takeLe h key es) →
      ∃ upd, searchLoop h key f k p upd0 = some upd ∧
        (∀ j, j ≤ k → upd j = updSpec h key es j) ∧
        (∀ j, k < j → upd j = upd0 j) := by
  intro k
  induction k with
  | zero =>
    intro hk p upd0 hp
    have hwalk := walk_updSpec hsorted hsent (hch 0 hk) hp hf
    refine ⟨fun i => if i = 0 then updSpec h key es 0 else upd0 i, ?_, ?_, ?_⟩
    · rw [searchLoop, hwalk]
    · intro j hj
      have hj0 : j = 0 := Nat.le_zero.mp hj
      simp [hj0]
    · intro j hj
      have hj0 : j ≠ 0 := by omega
      simp [hj0]
  | succ k ih =>
    intro hk p upd0 hp
    have hwalk := walk_updSpec hsorted hsent (hch (k + 1) hk) hp hf
    have h1 := getLastD_mem (nodesAtLevel h (k + 1) (takeLe h key es)) sentinelId
    have hmem : updSpec h key es (k + 1) ∈ sentinelId :: nodesAtLevel h k (takeLe h key es) := by
      unfold updSpec
      rcases List.mem_cons.mp h1 with he | he
      · rw [he]
        exact List.mem_cons_self _ _
      · exact List.mem_cons_of_mem _ ((nodesAtLevel_mono h (Nat.le_succ k) _).subset he)
    rcases ih (by omega) (updSpec h key es (k + 1))
        (fun i => if i = k + 1 then updSpec h key es (k + 1) else upd0 i) hmem
      with ⟨upd, heq, hle, hgt⟩
    refine ⟨upd, ?_, ?_, ?_⟩
    · rw [searchLoop, hwalk]
      exact heq
    · intro j hj
      rcases Nat.lt_or_ge j (k + 1) with hlt | hge
      · exact hle j (by omega)
      · have hj1 : j = k + 1 := by omega
        rw [hj1, hgt (k + 1) (by omega)]
        simp
    · intro j hj
      rw [hgt j (by omega)]
      have hne : j ≠ k + 1 := by omega
      simp [hne]

/-! ### Decomposing and rebuilding circular chains -/

theorem cyc_split (CA CB : List Nat) :
    cyc (CA ++ CB) = (sentinelId :: CA) ++ (CB ++ [sentinelId]) := by
  unfold cyc
  simp

theorem chainNext_left {h : Heap} {k : Nat} {CA CB : List Nat}
    (hch : chainNext h k (CA ++ CB)) :
    List.Chain' (nextRel h k) (sentinelId :: CA) := by
  unfold chainNext at hch
  rw [cyc_split] at hch
  exact (List.chain'_append.mp hch).1

theorem chainNext_right {h : Heap} {k : Nat} {CA CB : List Nat}
    (hch : chainNext h k (CA ++ CB)) :
    List.Chain' (nextRel h k) (CB ++ [sentinelId]) := by
  unfold chainNext at hch
  rw [cyc_split] at hch
  exact (List.chain'_append.mp hch).2.1

theorem chainNext_link {h : Heap} {k : Nat} {CA CB : List Nat}
    (hch : chainNext h k (CA ++ CB)) :
    (h (CA.getLastD sentinelId)).next k = CB.headD sentinelId := by
  unfold chainNext at hch
  rw [cyc_split] at hch
  rcases List.chain'_append.mp hch with ⟨_, _, h3⟩
  exact h3 (CA.getLastD sentinelId)
    (by rw [getLast?_cons_eq]; rfl)
    (CB.headD sentinelId)
    (by rw [head?_append_singleton]; rfl)

theorem chainPrev_left {h : Heap} {k : Nat} {CA CB : List Nat}
    (hch : chainPrev h k (CA ++ CB)) :
    List.Chain' (prevRel h k) (sentinelId :: CA) := by
  unfold chainPrev at hch
  rw [cyc_split] at hch
  exact (List.chain'_append.mp hch).1

theorem chainPrev_right {h : Heap} {k : Nat} {CA CB : List Nat}
    (hch : chainPrev h k (CA ++ CB)) :
    List.Chain' (prevRel h k) (CB ++ [sentinelId]) := by
  unfold chainPrev at hch
  rw [cyc_split] at hch
  exact (List.chain'_append.mp hch).2.1

theorem chainPrev_link {h : Heap} {k : Nat} {CA CB : List Nat}
    (hch : chainPrev h k (CA ++ CB)) :
    (h (CB.headD sentinelId)).prev k = CA.getLastD sentinelId := by
  unfold chainPrev at hch
  rw [cyc_split] at hch
  rcases List.chain'_append.mp hch with ⟨_, _, h3⟩
  exact h3 (CA.getLastD sentinelId)
    (by rw [getLast?_cons_eq]; rfl)
    (CB.headD sentinelId)
    (by rw [head?_append_singleton]; rfl)

theorem chainNext_nil_next {h : Heap} {k : Nat} (hch : chainNext h k []) :
    (h sentinelId).next k = sentinelId := by
  have := @chainNext_link h k [] [] (by simpa using hch)
  simpa using this

theorem chainPrev_nil_prev {h : Heap} {k : Nat} (hch : chainPrev h k []) :
    (h sentinelId).prev k = sentinelId := by
  have := @chainPrev_link h k [] [] (by simpa using hch)
  simpa using this

theorem headD_mem (l : List Nat) (d : Nat) : l.headD d ∈ d :: l := by
  cases l with
  | nil => exact List.mem_cons_self _ _
  | cons a t => exact List.mem_cons_of_mem _ (List.mem_cons_self _ _)

theorem dropLast_getLastD_ne {d : Nat} {t : List Nat} (hnd : (d :: t).Nodup) {a : Nat}
    (ha : a ∈ (d :: t).dropLast) : a ≠ t.getLastD d := by
  have hne : (d :: t) ≠ [] := List.cons_ne_nil _ _
  have heq : (d :: t).dropLast ++ [(d :: t).getLast hne] = d :: t :=
    List.dropLast_append_getLast hne
  have hnd2 : ((d :: t).dropLast ++ [(d :: t).getLast hne]).Nodup := by
    rw [heq]; exact hnd
  rcases List.nodup_append.mp hnd2 with ⟨_, _, hdisj⟩
  have hgl : (d :: t).getLast hne = t.getLastD d := by
    have h1 : (d :: t).getLast? = some ((d :: t).getLast hne) :=
      List.getLast?_eq_getLast_of_ne_nil hne
    rw [getLast?_cons_eq] at h1
    exact (Option.some_inj.mp h1).symm
  intro habs
  exact hdisj ha (by rw [habs, ← hgl]; exact List.mem_singleton_self _)

/-- Rebuilding the next chain after the splice inserts q between the last
node of CA and the first node of CB. -/
theorem chainNext_insert {h h2 : Heap} {k : Nat} {CA CB : List Nat} {q : Nat}
    (hch : chainNext h k (CA ++ CB))
    (hnd : (CA ++ CB).Nodup)
    (hsA : sentinelId ∉ CA) (hsB : sentinelId ∉ CB)
    (hqA : q ∉ CA) (hqB : q ∉ CB) (hqs : q ≠ sentinelId)
    (hq2 : (h2 q).next k = CB.headD sentinelId)
    (hupd : (h2 (CA.getLastD sentinelId)).next k = q)
    (hother : ∀ a, a ≠ q → a ≠ CA.getLastD sentinelId → (h2 a).next k = (h a).next k) :
    chainNext h2 k (CA ++ q :: CB) := by
  have hndA : (sentinelId :: CA).Nodup := by
    rcases List.nodup_append.mp hnd with ⟨h1, _, _⟩
    exact List.nodup_cons.mpr ⟨hsA, h1⟩
  have hdisj : List.Disjoint CA CB := (List.nodup_append.mp hnd).2.2
  unfold chainNext
  have hcyc : cyc (CA ++ q :: CB) = (sentinelId :: CA) ++ (q :: (CB ++ [sentinelId])) := by
    unfold cyc
    simp
  rw [hcyc]
  refine List.chain'_append.mpr ⟨?_, ?_, ?_⟩
  · refine chain'_next_congr (chainNext_left hch) ?_
    intro a ha
    have hamem : a ∈ sentinelId :: CA := (List.dropLast_sublist _).subset ha
    refine hother a ?_ (dropLast_getLastD_ne hndA ha)
    intro habs
    rcases List.mem_cons.mp (habs ▸ hamem) with h' | h'
    · exact hqs h'
    · exact hqA h'
  · refine List.chain'_cons'.mpr ⟨?_, ?_⟩
    · intro y hy
      rw [Option.mem_def, head?_append_singleton] at hy
      have hy2 : y = CB.headD sentinelId := (Option.some_inj.mp hy).symm
      rw [hy2]
      exact hq2
    · refine chain'_next_congr (chainNext_right hch) ?_
      intro a ha
      rw [List.dropLast_concat] at ha
      refine hother a (fun habs => hqB (habs ▸ ha)) ?_
      intro habs
      have hg : CB.headD sentinelId ∈ sentinelId :: CB := headD_mem CB sentinelId
      have hgl : CA.getLastD sentinelId ∈ sentinelId :: CA := getLastD_mem CA sentinelId
      rw [← habs] at hgl
      rcases List.mem_cons.mp hgl with h' | h'
      · exact hsB (h' ▸ ha)
      · exact hdisj h' ha
  · intro x hx y hy
    rw [Option.mem_def, getLast?_cons_eq] at hx
    have hx2 : x = CA.getLastD sentinelId := (Option.some_inj.mp hx).symm
    rw [Option.mem_def] at hy
    have hy2 : y = q := (Option.some_inj.mp hy).symm
    rw [hx2, hy2]
    exact hupd

/-- Rebuilding the prev chain after the splice. -/
theorem chainPrev_insert {h h2 : Heap} {k : Nat} {CA CB : List Nat} {q : Nat}
    (hch : chainPrev h k (CA ++ CB))
    (hnd : (CA ++ CB).Nodup)
    (hsA : sentinelId ∉ CA) (hsB : sentinelId ∉ CB)
    (hqA : q ∉ CA) (hqB : q ∉ CB) (hqs : q ≠ sentinelId)
    (hq2 : (h2 q).prev k = CA.getLastD sentinelId)
    (hsucc : (h2 (CB.headD sentinelId)).prev k = q)
    (hother : ∀ b, b ≠ q → b ≠ CB.headD sentinelId → (h2 b).prev k = (h b).prev k) :
    chainPrev h2 k (CA ++ q :: CB) := by
  have hdisj : List.Disjoint CA CB := (List.nodup_append.mp hnd).2.2
  have hndB : CB.Nodup := (List.nodup_append.mp hnd).2.1
  unfold chainPrev
  have hcyc : cyc (CA ++ q :: CB) = (sentinelId :: CA) ++ (q :: (CB ++ [sentinelId])) := by
    unfold cyc
    simp
  rw [hcyc]
  refine List.chain'_append.mpr ⟨?_, ?_, ?_⟩
  · refine chain'_prev_congr (chainPrev_left hch) ?_
    intro b hb
    have hbCA : b ∈ CA := hb
    refine hother b (fun habs => hqA (habs ▸ hbCA)) ?_
    intro habs
    have hg : CB.headD sentinelId ∈ sentinelId :: CB := headD_mem CB sentinelId
    rw [← habs] at hg
    rcases List.mem_cons.mp hg with h' | h'
    · exact hsA (h' ▸ hbCA)
    · exact hdisj hbCA h'
  · refine List.chain'_cons'.mpr ⟨?_, ?_⟩
    · intro y hy
      rw [Option.mem_def, head?_append_singleton] at hy
      have hy2 : y = CB.headD sentinelId := (Option.some_inj.mp hy).symm
      rw [hy2]
      exact hsucc
    · refine chain'_prev_congr (chainPrev_right hch) ?_
      intro b hb
      cases CB with
      | nil => cases hb
      | cons c rest =>
        have hb2 : b ∈ rest ++ [sentinelId] := hb
        refine hother b ?_ ?_
        · intro habs
          rcases List.mem_append.mp (habs ▸ hb2) with h' | h'
          · exact hqB (List.mem_cons_of_mem c h')
          · exact hqs (List.mem_singleton.mp h')
        · intro habs
          have habs2 : b = c := by
            rw [habs, List.headD_cons]
          rcases List.mem_append.mp hb2 with h' | h'
          · rcases List.nodup_cons.mp hndB with ⟨hcnr, _⟩
            exact hcnr (habs2 ▸ h')
          · have hcs : c = sentinelId := by
              rw [← habs2]
              exact List.mem_singleton.mp h'
            exact hsB (by rw [← hcs]; exact List.mem_cons_self _ _)
  · intro x hx y hy
    rw [Option.mem_def, getLast?_cons_eq] at hx
    have hx2 : x = CA.getLastD sentinelId := (Option.some_inj.mp hx).symm
    rw [Option.mem_def] at hy
    have hy2 : y = q := (Option.some_inj.mp hy).symm
    rw [hx2, hy2]
    exact hq2

/-! ### Facts feeding the insert correctness proof -/

theorem randomLevel_le15 (r : Nat) : randomLevel r ≤ 15 := by
  unfold randomLevel
  by_cases hl : rlAux r r 0 > 15
  · simp [hl]
  · simp [hl]
    omega

theorem takeLe_sublist (h : Heap) (key : Nat) (es : List Nat) :
    (takeLe h key es).Sublist es := List.takeWhile_sublist _

theorem dropLe_sublist (h : Heap) (key : Nat) (es : List Nat) :
    (dropLe h key es).Sublist es := List.dropWhile_sublist _

theorem nodesAtLevel_split (h : Heap) (key : Nat) (es : List Nat) (j : Nat) :
    nodesAtLevel h j es
      = nodesAtLevel h j (takeLe h key es) ++ nodesAtLevel h j (dropLe h key es) := by
  conv_lhs => rw [← takeLe_append_dropLe h key es]
  exact nodesAtLevel_append h j _ _

theorem maxLevel_append (h : Heap) (l1 l2 : List Nat) :
    maxLevel h (l1 ++ l2) = max (maxLevel h l1) (maxLevel h l2) := by
  induction l1 with
  | nil => simp [maxLevel_nil]
  | cons a t ih =>
    rw [List.cons_append, maxLevel_cons, maxLevel_cons, ih]
    omega

/-- Above the maximal level no node is linked, so the filtered chain is empty. -/
theorem nodesAtLevel_above_max {h : Heap} {es : List Nat} {j : Nat}
    (hj : maxLevel h es < j) : nodesAtLevel h j es = [] := by
  apply nodesAtLevel_eq_nil_iff.mpr
  intro e hm
  exact lt_of_le_of_lt (le_maxLevel_of_mem hm) hj

theorem updSpec_mem (h : Heap) (key : Nat) (es : List Nat) (j : Nat) :
    updSpec h key es j ∈ sentinelId :: nodesAtLevel h j (takeLe h key es) :=
  getLastD_mem _ _

theorem succSpec_mem (h : Heap) (key : Nat) (es : List Nat) (j : Nat) :
    succSpec h key es j ∈ sentinelId :: nodesAtLevel h j (dropLe h key es) :=
  headD_mem _ _

/-- The pointer the recorded predecessor holds at its level is the successor
candidate: sentinel when the suffix has no level-j node. -/
theorem updSpec_next_eq {h : Heap} {key : Nat} {es : List Nat} {j : Nat}
    (hchj : chainNext h j (nodesAtLevel h j es)) :
    (h (updSpec h key es j)).next j = succSpec h key es j := by
  rw [nodesAtLevel_split h key es j] at hchj
  exact chainNext_link hchj

theorem succSpec_prev_eq {h : Heap} {key : Nat} {es : List Nat} {j : Nat}
    (hchj : chainPrev h j (nodesAtLevel h j es)) :
    (h (succSpec h key es j)).prev j = updSpec h key es j := by
  rw [nodesAtLevel_split h key es j] at hchj
  exact chainPrev_link hchj

/-- Levels above the list level have empty chains under the invariant. -/
theorem good_chain_empty {s : SkipState} {es : List Nat} (G : Good s es) {j : Nat}
    (hj : s.listLevel < j) : nodesAtLevel s.nodes j es = [] :=
  nodesAtLevel_above_max (by rw [← G.lvlEq]; exact hj)

theorem good_listLevel_le15 {s : SkipState} {es : List Nat} (G : Good s es) :
    s.listLevel ≤ 15 := by
  rw [G.lvlEq]
  exact maxLevel_le G.lvl15

theorem good_sent_not_le {s : SkipState} {es : List Nat} (G : Good s es) {key : Nat}
    (hkey : key < U64MAX) : ¬ ((s.nodes sentinelId).key ≤ key) := by
  rw [G.sentKey]
  omega

theorem spliceLevels_congr (h : Heap) {upd upd' : Nat → Nat} (q : Nat) (k : Nat)
    (hag : ∀ j, j ≤ k → upd j = upd' j) :
    spliceLevels h upd q k = spliceLevels h upd' q k := by
  induction k generalizing h with
  | zero => simp [spliceLevels, hag 0 le_rfl]
  | succ k ih =>
    simp only [spliceLevels]
    rw [hag (k + 1) le_rfl]
    exact ih _ (fun j hj => hag j (Nat.le_succ_of_le hj))

theorem updSpec_above {s : SkipState} {es : List Nat} (G : Good s es) (key : Nat) {j : Nat}
    (hj : s.listLevel < j) : updSpec s.nodes key es j = sentinelId := by
  unfold updSpec
  have hnil : nodesAtLevel s.nodes j (takeLe s.nodes key es) = [] := by
    apply nodesAtLevel_eq_nil_iff.mpr
    intro e hm
    have hesm : e ∈ es := (takeLe_sublist _ _ _).subset hm
    calc (s.nodes e).level ≤ maxLevel s.nodes es := le_maxLevel_of_mem hesm
    _ = s.listLevel := G.lvlEq.symm
    _ < j := hj
  rw [hnil]
  rfl

theorem succSpec_above {s : SkipState} {es : List Nat} (G : Good s es) (key : Nat) {j : Nat}
    (hj : s.listLevel < j) : succSpec s.nodes key es j = sentinelId := by
  unfold succSpec
  have hnil : nodesAtLevel s.nodes j (dropLe s.nodes key es) = [] := by
    apply nodesAtLevel_eq_nil_iff.mpr
    intro e hm
    have hesm : e ∈ es := (dropLe_sublist _ _ _).subset hm
    calc (s.nodes e).level ≤ maxLevel s.nodes es := le_maxLevel_of_mem hesm
    _ = s.listLevel := G.lvlEq.symm
    _ < j := hj
  rw [hnil]
  rfl

/-- The state skiplist_insert produces, written with the specified update
array: allocation of the node at address s.fresh followed by the splice. -/
def insertedState (s : SkipState) (key value seed : Nat) (es : List Nat) : SkipState :=
  { nodes := spliceLevels
      (setNode s.nodes s.fresh
        { level := insLevel s seed, key := key, value := value
          next := fun _ => s.fresh, prev := fun _ => s.fresh })
      (fun j => updSpec s.nodes key es j) s.fresh (insLevel s seed)
    fresh := s.fresh + 1
    listLevel := if s.listLevel < randomLevel seed then s.listLevel + 1 else s.listLevel }

theorem insert_spec {s : SkipState} {es : List Nat} {key value seed f : Nat}
    (G : Good s es) (hkey : key < U64MAX) (hf : es.length < f) :
    skiplist_insert s key value seed f = some (insertedState s key value seed es, s.fresh) := by
  have hsent := good_sent_not_le G hkey
  rcases searchLoop_spec G.sorted hsent G.chainsN hf s.listLevel (good_listLevel_le15 G)
      sentinelId (fun _ => sentinelId) (List.mem_cons_self _ _)
    with ⟨upd, hseq, hle, hgt⟩
  unfold skiplist_insert
  rw [hseq]
  by_cases hgrow : s.listLevel < randomLevel seed
  · have hlvl : insLevel s seed = s.listLevel + 1 := by
      unfold insLevel
      rw [if_pos hgrow]
    have hsplice :
        spliceLevels
          (setNode s.nodes s.fresh
            { level := s.listLevel + 1, key := key, value := value
              next := fun _ => s.fresh, prev := fun _ => s.fresh })
          (fun i => if i = s.listLevel + 1 then sentinelId else upd i)
          s.fresh (s.listLevel + 1)
        = spliceLevels
          (setNode s.nodes s.fresh
            { level := insLevel s seed, key := key, value := value
              next := fun _ => s.fresh, prev := fun _ => s.fresh })
          (fun j => updSpec s.nodes key es j) s.fresh (insLevel s seed) := by
      rw [hlvl]
      apply spliceLevels_congr
      intro j hj
      by_cases hj1 : j = s.listLevel + 1
      · rw [if_pos hj1, hj1, updSpec_above G key (by omega)]
      · rw [if_neg hj1]
        exact hle j (by omega)
    simp only [if_pos hgrow]
    unfold insertedState
    rw [← hsplice, ← hlvl]
    simp only [if_pos hgrow, hlvl]
  · have hlvl : insLevel s seed = randomLevel seed := by
      unfold insLevel
      rw [if_neg hgrow]
    have hsplice :
        spliceLevels
          (setNode s.nodes s.fresh
            { level := randomLevel seed, key := key, value := value
              next := fun _ => s.fresh, prev := fun _ => s.fresh })
          upd s.fresh (randomLevel seed)
        = spliceLevels
          (setNode s.nodes s.fresh
            { level := insLevel s seed, key := key, value := value
              next := fun _ => s.fresh, prev := fun _ => s.fresh })
          (fun j => updSpec s.nodes key es j) s.fresh (insLevel s seed) := by
      rw [hlvl]
      apply spliceLevels_congr
      intro j hj
      exact hle j (by omega)
    simp only [if_neg hgrow]
    unfold insertedState
    rw [← hsplice]
    simp only [if_neg hgrow]

theorem insLevel_le15 {s : SkipState} {es : List Nat} (G : Good s es) (seed : Nat) :
    insLevel s seed ≤ 15 := by
  unfold insLevel
  by_cases hgrow : s.listLevel < randomLevel seed
  · rw [if_pos hgrow]
    have := randomLevel_le15 seed
    omega
  · rw [if_neg hgrow]
    exact randomLevel_le15 seed

theorem good_updSpec_ne {s : SkipState} {es : List Nat} (G : Good s es) (key : Nat) {j : Nat} :
    updSpec s.nodes key es j ≠ s.fresh := by
  rcases List.mem_cons.mp (updSpec_mem s.nodes key es j) with h' | h'
  · rw [h']
    exact Nat.ne_of_lt G.freshPos
  · have hm : updSpec s.nodes key es j ∈ es :=
      (takeLe_sublist s.nodes key es).subset ((nodesAtLevel_sublist _ _ _).subset h')
    exact Nat.ne_of_lt (G.bounded _ hm).2

theorem good_succSpec_ne {s : SkipState} {es : List Nat} (G : Good s es) (key : Nat) {j : Nat} :
    succSpec s.nodes key es j ≠ s.fresh := by
  rcases List.mem_cons.mp (succSpec_mem s.nodes key es j) with h' | h'
  · rw [h']
    exact Nat.ne_of_lt G.freshPos
  · have hm : succSpec s.nodes key es j ∈ es :=
      (dropLe_sublist s.nodes key es).subset ((nodesAtLevel_sublist _ _ _).subset h')
    exact Nat.ne_of_lt (G.bounded _ hm).2

theorem inserted_level {s : SkipState} (key value seed : Nat) (es : List Nat) (y : Nat) :
    ((insertedState s key value seed es).nodes y).level =
      if y = s.fresh then insLevel s seed else (s.nodes y).level := by
  unfold insertedState
  simp only []
  rw [spliceLevels_level, setNode_apply]
  by_cases hy : y = s.fresh <;> simp [hy]

theorem inserted_key {s : SkipState} (key value seed : Nat) (es : List Nat) (y : Nat) :
    ((insertedState s key value seed es).nodes y).key =
      if y = s.fresh then key else (s.nodes y).key := by
  unfold insertedState
  simp only []
  rw [spliceLevels_key, setNode_apply]
  by_cases hy : y = s.fresh <;> simp [hy]

theorem inserted_value {s : SkipState} (key value seed : Nat) (es : List Nat) (y : Nat) :
    ((insertedState s key value seed es).nodes y).value =
      if y = s.fresh then value else (s.nodes y).value := by
  unfold insertedState
  simp only []
  rw [spliceLevels_value, setNode_apply]
  by_cases hy : y = s.fresh <;> simp [hy]

theorem inserted_next {s : SkipState} {es : List Nat} (G : Good s es)
    (key value seed : Nat) (i : Nat) (y : Nat) :
    ((insertedState s key value seed es).nodes y).next i =
      if i ≤ insLevel s seed then
        (if y = s.fresh then (s.nodes (updSpec s.nodes key es i)).next i
         else if y = updSpec s.nodes key es i then s.fresh else (s.nodes y).next i)
      else (if y = s.fresh then s.fresh else (s.nodes y).next i) := by
  unfold insertedState
  simp only []
  rw [spliceLevels_next _ _ _ _ (fun j _ => good_updSpec_ne G key)]
  by_cases hi : i ≤ insLevel s seed
  · rw [if_pos hi, if_pos hi]
    by_cases hyq : y = s.fresh
    · rw [if_pos hyq, if_pos hyq, setNode_apply, if_neg (good_updSpec_ne G key)]
    · rw [if_neg hyq, if_neg hyq]
      by_cases hyu : y = updSpec s.nodes key es i
      · rw [if_pos hyu, if_pos hyu]
      · rw [if_neg hyu, if_neg hyu, setNode_apply, if_neg hyq]
  · rw [if_neg hi, if_neg hi]
    by_cases hyq : y = s.fresh
    · rw [if_pos hyq, setNode_apply, if_pos hyq]
    · rw [if_neg hyq, setNode_apply, if_neg hyq]

theorem inserted_prev {s : SkipState} {es : List Nat} (G : Good s es)
    (key value seed : Nat) (i : Nat) (y : Nat) :
    ((insertedState s key value seed es).nodes y).prev i =
      if i ≤ insLevel s seed then
        (if y = s.fresh then updSpec s.nodes key es i
         else if y = (s.nodes (updSpec s.nodes key es i)).next i then s.fresh
         else (s.nodes y).prev i)
      else (if y = s.fresh then s.fresh else (s.nodes y).prev i) := by
  have hread : ∀ (j : Nat), ((setNode s.nodes s.fresh
      { level := insLevel s seed, key := key, value := value
        next := fun _ => s.fresh, prev := fun _ => s.fresh }) (updSpec s.nodes key es j)).next j
      = (s.nodes (updSpec s.nodes key es j)).next j := by
    intro j
    rw [setNode_apply, if_neg (good_updSpec_ne G key)]
  have hH2 : ∀ j, j ≤ insLevel s seed → ((setNode s.nodes s.fresh
      { level := insLevel s seed, key := key, value := value
        next := fun _ => s.fresh, prev := fun _ => s.fresh }) (updSpec s.nodes key es j)).next j
      ≠ s.fresh := by
    intro j hj
    rw [hread j]
    rw [updSpec_next_eq (G.chainsN j (le_trans hj (insLevel_le15 G seed)))]
    exact good_succSpec_ne G key
  unfold insertedState
  simp only []
  rw [spliceLevels_prev _ _ _ _ (fun j _ => good_updSpec_ne G key) hH2]
  by_cases hi : i ≤ insLevel s seed
  · rw [if_pos hi, if_pos hi]
    by_cases hyq : y = s.fresh
    · rw [if_pos hyq, if_pos hyq]
    · rw [if_neg hyq, if_neg hyq, hread i]
      by_cases hyu : y = (s.nodes (updSpec s.nodes key es i)).next i
      · rw [if_pos hyu, if_pos hyu]
      · rw [if_neg hyu, if_neg hyu, setNode_apply, if_neg hyq]
  · rw [if_neg hi, if_neg hi]
    by_cases hyq : y = s.fresh
    · rw [if_pos hyq, setNode_apply, if_pos hyq]
    · rw [if_neg hyq, setNode_apply, if_neg hyq]

theorem nodesAtLevel_nodup (h : Heap) (k : Nat) {es : List Nat} (hnd : es.Nodup) :
    (nodesAtLevel h k es).Nodup := hnd.filter _

theorem mem_cyc_ne_fresh {s : SkipState} {es : List Nat} (G : Good s es) {l : List Nat}
    (hsub : ∀ x ∈ l, x ∈ es) {a : Nat} (ha : a ∈ cyc l) : a ≠ s.fresh := by
  unfold cyc at ha
  rcases List.mem_cons.mp ha with h1 | h2
  · rw [h1]
    exact Nat.ne_of_lt G.freshPos
  · rcases List.mem_append.mp h2 with h3 | h3
    · exact Nat.ne_of_lt (G.bounded a (hsub a h3)).2
    · rw [List.mem_singleton.mp h3]
      exact Nat.ne_of_lt G.freshPos

theorem inserted_level_old {s : SkipState} {es : List Nat} (G : Good s es)
    (key value seed : Nat) {y : Nat} (hy : y ∈ es) :
    ((insertedState s key value seed es).nodes y).level = (s.nodes y).level := by
  rw [inserted_level, if_neg (Nat.ne_of_lt (G.bounded y hy).2)]

theorem insert_chain_split {s : SkipState} {es : List Nat} (G : Good s es)
    (key value seed : Nat) {k : Nat} (hk : k ≤ insLevel s seed) :
    nodesAtLevel (insertedState s key value seed es).nodes k
        (takeLe s.nodes key es ++ s.fresh :: dropLe s.nodes key es)
      = nodesAtLevel s.nodes k (takeLe s.nodes key es)
        ++ s.fresh :: nodesAtLevel s.nodes k (dropLe s.nodes key es) := by
  rw [nodesAtLevel_append]
  have hA : nodesAtLevel (insertedState s key value seed es).nodes k (takeLe s.nodes key es)
      = nodesAtLevel s.nodes k (takeLe s.nodes key es) :=
    nodesAtLevel_congr k (fun e he =>
      inserted_level_old G key value seed ((takeLe_sublist _ _ _).subset he))
  have hB : nodesAtLevel (insertedState s key value seed es).nodes k (dropLe s.nodes key es)
      = nodesAtLevel s.nodes k (dropLe s.nodes key es) :=
    nodesAtLevel_congr k (fun e he =>
      inserted_level_old G key value seed ((dropLe_sublist _ _ _).subset he))
  have hcons : nodesAtLevel (insertedState s key value seed es).nodes k
      (s.fresh :: dropLe s.nodes key es)
      = s.fresh :: nodesAtLevel (insertedState s key value seed es).nodes k
          (dropLe s.nodes key es) := by
    unfold nodesAtLevel
    rw [List.filter_cons]
    have hdec : decide (k ≤ ((insertedState s key value seed es).nodes s.fresh).level)
        = true := by
      rw [inserted_level, if_pos rfl]
      exact decide_eq_true hk
    rw [hdec]
    simp
  rw [hA, hcons, hB]

theorem insert_chain_skip {s : SkipState} {es : List Nat} (G : Good s es)
    (key value seed : Nat) {k : Nat} (hk : insLevel s seed < k) :
    nodesAtLevel (insertedState s key value seed es).nodes k
        (takeLe s.nodes key es ++ s.fresh :: dropLe s.nodes key es)
      = nodesAtLevel s.nodes k es := by
  rw [nodesAtLevel_append]
  have hA : nodesAtLevel (insertedState s key value seed es).nodes k (takeLe s.nodes key es)
      = nodesAtLevel s.nodes k (takeLe s.nodes key es) :=
    nodesAtLevel_congr k (fun e he =>
      inserted_level_old G key value seed ((takeLe_sublist _ _ _).subset he))
  have hB : nodesAtLevel (insertedState s key value seed es).nodes k (dropLe s.nodes key es)
      = nodesAtLevel s.nodes k (dropLe s.nodes key es) :=
    nodesAtLevel_congr k (fun e he =>
      inserted_level_old G key value seed ((dropLe_sublist _ _ _).subset he))
  have hcons : nodesAtLevel (insertedState s key value seed es).nodes k
      (s.fresh :: dropLe s.nodes key es)
      = nodesAtLevel (insertedState s key value seed es).nodes k
          (dropLe s.nodes key es) := by
    unfold nodesAtLevel
    rw [List.filter_cons]
    have hdec : decide (k ≤ ((insertedState s key value seed es).nodes s.fresh).level)
        = false := by
      rw [inserted_level, if_pos rfl]
      exact decide_eq_false (by omega)
    rw [hdec]
    simp
  rw [hA, hcons, hB, ← nodesAtLevel_split]

theorem updSpec_def (h : Heap) (key : Nat) (es : List Nat) (j : Nat) :
    (nodesAtLevel h j (takeLe h key es)).getLastD sentinelId = updSpec h key es j := rfl

theorem succSpec_def (h : Heap) (key : Nat) (es : List Nat) (j : Nat) :
    (nodesAtLevel h j (dropLe h key es)).headD sentinelId = succSpec h key es j := rfl

theorem insert_chainsN {s : SkipState} {es : List Nat} (G : Good s es)
    {key : Nat} (hkey : key < U64MAX) (value seed : Nat) :
    ∀ k, k ≤ 15 → chainNext (insertedState s key value seed es).nodes k
      (nodesAtLevel (insertedState s key value seed es).nodes k
        (takeLe s.nodes key es ++ s.fresh :: dropLe s.nodes key es)) := by
  intro k hk
  by_cases hklvl : k ≤ insLevel s seed
  · rw [insert_chain_split G key value seed hklvl]
    apply chainNext_insert (h := s.nodes)
    · rw [← nodesAtLevel_split]
      exact G.chainsN k hk
    · rw [← nodesAtLevel_split]
      exact nodesAtLevel_nodup _ _ G.nodup
    · intro habs
      exact G.noSent ((takeLe_sublist _ _ _).subset ((nodesAtLevel_sublist _ _ _).subset habs))
    · intro habs
      exact G.noSent ((dropLe_sublist _ _ _).subset ((nodesAtLevel_sublist _ _ _).subset habs))
    · intro habs
      exact Nat.lt_irrefl _ ((G.bounded _
        ((takeLe_sublist _ _ _).subset ((nodesAtLevel_sublist _ _ _).subset habs))).2)
    · intro habs
      exact Nat.lt_irrefl _ ((G.bounded _
        ((dropLe_sublist _ _ _).subset ((nodesAtLevel_sublist _ _ _).subset habs))).2)
    · exact (Nat.ne_of_lt G.freshPos).symm
    · rw [inserted_next G key value seed, if_pos hklvl, if_pos rfl,
        updSpec_next_eq (G.chainsN k hk)]
      rfl
    · rw [updSpec_def s.nodes key es k, inserted_next G key value seed, if_pos hklvl,
        if_neg (good_updSpec_ne G key), if_pos rfl]
    · intro a haq hau
      rw [updSpec_def s.nodes key es k] at hau
      rw [inserted_next G key value seed, if_pos hklvl, if_neg haq, if_neg hau]
  · rw [insert_chain_skip G key value seed (by omega)]
    unfold chainNext
    apply chain'_next_congr (G.chainsN k hk)
    intro a ha
    have hane : a ≠ s.fresh :=
      mem_cyc_ne_fresh G (fun x hx => (nodesAtLevel_sublist _ _ _).subset hx)
        ((List.dropLast_sublist _).subset ha)
    rw [inserted_next G key value seed, if_neg hklvl, if_neg hane]

theorem insert_chainsP {s : SkipState} {es : List Nat} (G : Good s es)
    {key : Nat} (hkey : key < U64MAX) (value seed : Nat) :
    ∀ k, k ≤ 15 → chainPrev (insertedState s key value seed es).nodes k
      (nodesAtLevel (insertedState s key value seed es).nodes k
        (takeLe s.nodes key es ++ s.fresh :: dropLe s.nodes key es)) := by
  intro k hk
  by_cases hklvl : k ≤ insLevel s seed
  · rw [insert_chain_split G key value seed hklvl]
    apply chainPrev_insert (h := s.nodes)
    · rw [← nodesAtLevel_split]
      exact G.chainsP k hk
    · rw [← nodesAtLevel_split]
      exact nodesAtLevel_nodup _ _ G.nodup
    · intro habs
      exact G.noSent ((takeLe_sublist _ _ _).subset ((nodesAtLevel_sublist _ _ _).subset habs))
    · intro habs
      exact G.noSent ((dropLe_sublist _ _ _).subset ((nodesAtLevel_sublist _ _ _).subset habs))
    · intro habs
      exact Nat.lt_irrefl _ ((G.bounded _
        ((takeLe_sublist _ _ _).subset ((nodesAtLevel_sublist _ _ _).subset habs))).2)
    · intro habs
      exact Nat.lt_irrefl _ ((G.bounded _
        ((dropLe_sublist _ _ _).subset ((nodesAtLevel_sublist _ _ _).subset habs))).2)
    · exact (Nat.ne_of_lt G.freshPos).symm
    · rw [inserted_prev G key value seed, if_pos hklvl, if_pos rfl]
      rfl
    · rw [succSpec_def s.nodes key es k, inserted_prev G key value seed, if_pos hklvl,
        if_neg (good_succSpec_ne G key),
        if_pos (by rw [updSpec_next_eq (G.chainsN k hk)])]
    · intro b hbq hbs
      rw [succSpec_def s.nodes key es k] at hbs
      rw [inserted_prev G key value seed, if_pos hklvl, if_neg hbq,
        if_neg (by rw [updSpec_next_eq (G.chainsN k hk)]; exact hbs)]
  · rw [insert_chain_skip G key value seed (by omega)]
    unfold chainPrev
    apply chain'_prev_congr (G.chainsP k hk)
    intro b hb
    have hbne : b ≠ s.fresh :=
      mem_cyc_ne_fresh G (fun x hx => (nodesAtLevel_sublist _ _ _).subset hx)
        ((List.tail_sublist _).subset hb)
    rw [inserted_prev G key value seed, if_neg hklvl, if_neg hbne]

theorem insert_sorted {s : SkipState} {es : List Nat} (G : Good s es)
    {key : Nat} (value seed : Nat) :
    List.Pairwise (fun a b => ((insertedState s key value seed es).nodes a).key
        ≤ ((insertedState s key value seed es).nodes b).key)
      (takeLe s.nodes key es ++ s.fresh :: dropLe s.nodes key es) := by
  have hkey2 : ∀ y ∈ es,
      ((insertedState s key value seed es).nodes y).key = (s.nodes y).key := by
    intro y hy
    rw [inserted_key, if_neg (Nat.ne_of_lt (G.bounded y hy).2)]
  have hkeyq : ((insertedState s key value seed es).nodes s.fresh).key = key := by
    rw [inserted_key, if_pos rfl]
  apply List.pairwise_append.mpr
  refine ⟨?_, ?_, ?_⟩
  · have hAs : List.Pairwise (fun a b => (s.nodes a).key ≤ (s.nodes b).key)
        (takeLe s.nodes key es) := G.sorted.sublist (takeLe_sublist _ _ _)
    apply List.Pairwise.imp_of_mem ?_ hAs
    intro a b ha hb hr
    rw [hkey2 a ((takeLe_sublist _ _ _).subset ha),
      hkey2 b ((takeLe_sublist _ _ _).subset hb)]
    exact hr
  · apply List.pairwise_cons.mpr
    refine ⟨?_, ?_⟩
    · intro b hb
      rw [hkeyq, hkey2 b ((dropLe_sublist _ _ _).subset hb)]
      have := mem_dropLe_gt G.sorted b hb
      omega
    · have hBs := G.sorted.sublist (dropLe_sublist s.nodes key es)
      apply List.Pairwise.imp_of_mem ?_ hBs
      intro a b ha hb hr
      rw [hkey2 a ((dropLe_sublist _ _ _).subset ha),
        hkey2 b ((dropLe_sublist _ _ _).subset hb)]
      exact hr
  · intro a ha b hb
    have haK : (s.nodes a).key ≤ key := mem_takeLe_le ha
    rcases List.mem_cons.mp hb with rfl | hb2
    · rw [hkey2 a ((takeLe_sublist _ _ _).subset ha), hkeyq]
      exact haK
    · rw [hkey2 a ((takeLe_sublist _ _ _).subset ha),
        hkey2 b ((dropLe_sublist _ _ _).subset hb2)]
      have hsplit := G.sorted
      rw [← takeLe_append_dropLe s.nodes key es] at hsplit
      exact (List.pairwise_append.mp hsplit).2.2 a ha b hb2

theorem insert_lvlEq {s : SkipState} {es : List Nat} (G : Good s es)
    {key : Nat} (value seed : Nat) :
    (insertedState s key value seed es).listLevel
      = maxLevel (insertedState s key value seed es).nodes
          (takeLe s.nodes key es ++ s.fresh :: dropLe s.nodes key es) := by
  have hmA : maxLevel (insertedState s key value seed es).nodes (takeLe s.nodes key es)
      = maxLevel s.nodes (takeLe s.nodes key es) :=
    maxLevel_congr (fun e he =>
      inserted_level_old G key value seed ((takeLe_sublist _ _ _).subset he))
  have hmB : maxLevel (insertedState s key value seed es).nodes (dropLe s.nodes key es)
      = maxLevel s.nodes (dropLe s.nodes key es) :=
    maxLevel_congr (fun e he =>
      inserted_level_old G key value seed ((dropLe_sublist _ _ _).subset he))
  have hlq : ((insertedState s key value seed es).nodes s.fresh).level = insLevel s seed := by
    rw [inserted_level, if_pos rfl]
  have hA15 : maxLevel s.nodes (takeLe s.nodes key es) ≤ s.listLevel := by
    rw [G.lvlEq]
    exact maxLevel_le (fun e he => le_maxLevel_of_mem ((takeLe_sublist _ _ _).subset he))
  have hB15 : maxLevel s.nodes (dropLe s.nodes key es) ≤ s.listLevel := by
    rw [G.lvlEq]
    exact maxLevel_le (fun e he => le_maxLevel_of_mem ((dropLe_sublist _ _ _).subset he))
  have hes2 : max (maxLevel s.nodes (takeLe s.nodes key es))
      (maxLevel s.nodes (dropLe s.nodes key es)) = s.listLevel := by
    rw [← maxLevel_append, takeLe_append_dropLe]
    exact G.lvlEq.symm
  rw [maxLevel_append, maxLevel_cons, hmA, hmB, hlq]
  show (insertedState s key value seed es).listLevel = _
  unfold insertedState insLevel
  simp only []
  by_cases hgrow : s.listLevel < randomLevel seed
  · rw [if_pos hgrow, if_pos hgrow]
    rw [max_eq_left (le_trans hB15 (Nat.le_succ _)),
      max_eq_right (le_trans hA15 (Nat.le_succ _))]
  · rw [if_neg hgrow, if_neg hgrow]
    have hk0 : randomLevel seed ≤ s.listLevel := by omega
    rw [max_comm (randomLevel seed) _, ← max_assoc, hes2]
    exact (max_eq_left hk0).symm

theorem insert_good {s : SkipState} {es : List Nat} (G : Good s es)
    {key : Nat} (hkey : key < U64MAX) (value seed : Nat) :
    Good (insertedState s key value seed es)
      (takeLe s.nodes key es ++ s.fresh :: dropLe s.nodes key es) := by
  have hfreshA : s.fresh ∉ takeLe s.nodes key es := fun habs =>
    Nat.lt_irrefl _ (G.bounded _ ((takeLe_sublist _ _ _).subset habs)).2
  have hfreshB : s.fresh ∉ dropLe s.nodes key es := fun habs =>
    Nat.lt_irrefl _ (G.bounded _ ((dropLe_sublist _ _ _).subset habs)).2
  have hsf : sentinelId ≠ s.fresh := Nat.ne_of_lt G.freshPos
  constructor
  · apply List.nodup_middle.mpr
    apply List.nodup_cons.mpr
    constructor
    · intro habs
      rcases List.mem_append.mp habs with h' | h'
      · exact hfreshA h'
      · exact hfreshB h'
    · rw [takeLe_append_dropLe]
      exact G.nodup
  · intro habs
    rcases List.mem_append.mp habs with h' | h'
    · exact G.noSent ((takeLe_sublist _ _ _).subset h')
    · rcases List.mem_cons.mp h' with h2 | h2
      · exact hsf h2
      · exact G.noSent ((dropLe_sublist _ _ _).subset h2)
  · intro e he
    show 0 < e ∧ e < s.fresh + 1
    rcases List.mem_append.mp he with h' | h'
    · have := G.bounded e ((takeLe_sublist _ _ _).subset h')
      omega
    · rcases List.mem_cons.mp h' with h2 | h2
      · rw [h2]
        have := G.freshPos
        omega
      · have := G.bounded e ((dropLe_sublist _ _ _).subset h2)
        omega
  · show 0 < s.fresh + 1
    omega
  · intro e he
    rcases List.mem_append.mp he with h' | h'
    · rw [inserted_level_old G key value seed ((takeLe_sublist _ _ _).subset h')]
      exact G.lvl15 e ((takeLe_sublist _ _ _).subset h')
    · rcases List.mem_cons.mp h' with h2 | h2
      · rw [h2, inserted_level, if_pos rfl]
        exact insLevel_le15 G seed
      · rw [inserted_level_old G key value seed ((dropLe_sublist _ _ _).subset h2)]
        exact G.lvl15 e ((dropLe_sublist _ _ _).subset h2)
  · intro e he
    rcases List.mem_append.mp he with h' | h'
    · rw [inserted_key, if_neg (Nat.ne_of_lt (G.bounded e ((takeLe_sublist _ _ _).subset h')).2)]
      exact G.keyLt e ((takeLe_sublist _ _ _).subset h')
    · rcases List.mem_cons.mp h' with h2 | h2
      · rw [h2, inserted_key, if_pos rfl]
        exact hkey
      · rw [inserted_key, if_neg (Nat.ne_of_lt (G.bounded e ((dropLe_sublist _ _ _).subset h2)).2)]
        exact G.keyLt e ((dropLe_sublist _ _ _).subset h2)
  · intro x
    rw [inserted_key]
    by_cases hx : x = s.fresh
    · rw [if_pos hx]
      omega
    · rw [if_neg hx]
      exact G.allKeys x
  · rw [inserted_key, if_neg hsf]
    exact G.sentKey
  · rw [inserted_level, if_neg hsf]
    exact G.sentLevel
  · rw [inserted_value, if_neg hsf]
    exact G.sentValue
  · exact insert_sorted G value seed
  · exact insert_lvlEq G value seed
  · exact insert_chainsN G hkey value seed
  · exact insert_chainsP G hkey value seed

/-! ### Deletion: chain surgery -/

theorem append_cons_assoc (CU : List Nat) (x : Nat) (CV : List Nat) :
    (CU ++ [x]) ++ CV = CU ++ x :: CV := by
  simp

theorem chainNext_mid_next {h : Heap} {k : Nat} {CU CV : List Nat} {x : Nat}
    (hch : chainNext h k (CU ++ x :: CV)) : (h x).next k = CV.headD sentinelId := by
  have h2 : chainNext h k ((CU ++ [x]) ++ CV) := by
    rw [append_cons_assoc]
    exact hch
  have h3 := chainNext_link h2
  rw [getLastD_append_cons] at h3
  exact h3

theorem chainPrev_mid_prev {h : Heap} {k : Nat} {CU CV : List Nat} {x : Nat}
    (hch : chainPrev h k (CU ++ x :: CV)) : (h x).prev k = CU.getLastD sentinelId := by
  have h3 := @chainPrev_link h k CU (x :: CV) hch
  rw [List.headD_cons] at h3
  exact h3

theorem chainNext_delete {h h2 : Heap} {k : Nat} {CU CV : List Nat} {x : Nat}
    (hch : chainNext h k (CU ++ x :: CV))
    (hnd : (CU ++ x :: CV).Nodup)
    (hsU : sentinelId ∉ CU) (hsV : sentinelId ∉ CV)
    (hpr : (h2 (CU.getLastD sentinelId)).next k = CV.headD sentinelId)
    (hother : ∀ a, a ≠ CU.getLastD sentinelId → (h2 a).next k = (h a).next k) :
    chainNext h2 k (CU ++ CV) := by
  have hndU : (sentinelId :: CU).Nodup := by
    rcases List.nodup_append.mp hnd with ⟨h1, _, _⟩
    exact List.nodup_cons.mpr ⟨hsU, h1⟩
  have hdisj : List.Disjoint CU (x :: CV) := (List.nodup_append.mp hnd).2.2
  unfold chainNext
  rw [cyc_split]
  refine List.chain'_append.mpr ⟨?_, ?_, ?_⟩
  · refine chain'_next_congr (@chainNext_left h k CU (x :: CV) hch) ?_
    intro a ha
    exact hother a (dropLast_getLastD_ne hndU ha)
  · have hch2 : chainNext h k ((CU ++ [x]) ++ CV) := by
      rw [append_cons_assoc]
      exact hch
    refine chain'_next_congr (chainNext_right hch2) ?_
    intro a ha
    rw [List.dropLast_concat] at ha
    apply hother
    intro habs
    have hgl : CU.getLastD sentinelId ∈ sentinelId :: CU := getLastD_mem _ _
    rw [← habs] at hgl
    rcases List.mem_cons.mp hgl with h' | h'
    · exact hsV (h' ▸ ha)
    · exact hdisj h' (List.mem_cons_of_mem _ ha)
  · intro a hx2 y hy
    rw [Option.mem_def, getLast?_cons_eq] at hx2
    have ha2 : a = CU.getLastD sentinelId := (Option.some_inj.mp hx2).symm
    rw [Option.mem_def, head?_append_singleton] at hy
    have hy2 : y = CV.headD sentinelId := (Option.some_inj.mp hy).symm
    rw [ha2, hy2]
    exact hpr

theorem chainPrev_delete {h h2 : Heap} {k : Nat} {CU CV : List Nat} {x : Nat}
    (hch : chainPrev h k (CU ++ x :: CV))
    (hnd : (CU ++ x :: CV).Nodup)
    (hsU : sentinelId ∉ CU) (hsV : sentinelId ∉ CV)
    (hsv : (h2 (CV.headD sentinelId)).prev k = CU.getLastD sentinelId)
    (hother : ∀ b, b ≠ CV.headD sentinelId → (h2 b).prev k = (h b).prev k) :
    chainPrev h2 k (CU ++ CV) := by
  have hdisj : List.Disjoint CU (x :: CV) := (List.nodup_append.mp hnd).2.2
  have hndxV : (x :: CV).Nodup := (List.nodup_append.mp hnd).2.1
  have hndV : CV.Nodup := (List.nodup_cons.mp hndxV).2
  unfold chainPrev
  rw [cyc_split]
  refine List.chain'_append.mpr ⟨?_, ?_, ?_⟩
  · refine chain'_prev_congr (@chainPrev_left h k CU (x :: CV) hch) ?_
    intro b hb
    have hbCU : b ∈ CU := hb
    apply hother
    intro habs
    have hg : CV.headD sentinelId ∈ sentinelId :: CV := headD_mem _ _
    rw [← habs] at hg
    rcases List.mem_cons.mp hg with h' | h'
    · exact hsU (h' ▸ hbCU)
    · exact hdisj hbCU (List.mem_cons_of_mem _ h')
  · have hch2 : chainPrev h k ((CU ++ [x]) ++ CV) := by
      rw [append_cons_assoc]
      exact hch
    refine chain'_prev_congr (chainPrev_right hch2) ?_
    intro b hb
    apply hother
    cases CV with
    | nil => cases hb
    | cons c rest =>
      intro habs
      have habs2 : b = c := by
        rw [habs, List.headD_cons]
      have hb2 : b ∈ rest ++ [sentinelId] := hb
      rcases List.mem_append.mp hb2 with h' | h'
      · rcases List.nodup_cons.mp hndV with ⟨hcnr, _⟩
        exact hcnr (habs2 ▸ h')
      · have hcs : c = sentinelId := by
          rw [← habs2]
          exact List.mem_singleton.mp h'
        exact hsV (by rw [← hcs]; exact List.mem_cons_self _ _)
  · intro a hx2 y hy
    rw [Option.mem_def, getLast?_cons_eq] at hx2
    have ha2 : a = CU.getLastD sentinelId := (Option.some_inj.mp hx2).symm
    rw [Option.mem_def, head?_append_singleton] at hy
    have hy2 : y = CV.headD sentinelId := (Option.some_inj.mp hy).symm
    rw [ha2, hy2]
    exact hsv

theorem delnode_next (s : SkipState) (x y i : Nat) :
    ((skiplist_delnode s x).nodes y).next i =
      if i ≤ (s.nodes x).level ∧ y = (s.nodes x).prev i then (s.nodes x).next i
      else (s.nodes y).next i := by
  unfold skiplist_delnode
  exact unlinkUpTo_next _ _ _ _ _

theorem delnode_prev (s : SkipState) (x y i : Nat) :
    ((skiplist_delnode s x).nodes y).prev i =
      if i ≤ (s.nodes x).level ∧ y = (s.nodes x).next i then (s.nodes x).prev i
      else (s.nodes y).prev i := by
  unfold skiplist_delnode
  exact unlinkUpTo_prev _ _ _ _ _

theorem delnode_level (s : SkipState) (x y : Nat) :
    ((skiplist_delnode s x).nodes y).level = (s.nodes y).level := by
  unfold skiplist_delnode
  exact unlinkUpTo_level _ _ _ _

theorem delnode_key (s : SkipState) (x y : Nat) :
    ((skiplist_delnode s x).nodes y).key = (s.nodes y).key := by
  unfold skiplist_delnode
  exact unlinkUpTo_key _ _ _ _

theorem delnode_value (s : SkipState) (x y : Nat) :
    ((skiplist_delnode s x).nodes y).value = (s.nodes y).value := by
  unfold skiplist_delnode
  exact unlinkUpTo_value _ _ _ _

theorem delnode_fresh (s : SkipState) (x : Nat) :
    (skiplist_delnode s x).fresh = s.fresh := rfl

theorem nodesAtLevel_cons_pos {h : Heap} {k x : Nat} (t : List Nat)
    (hx : k ≤ (h x).level) :
    nodesAtLevel h k (x :: t) = x :: nodesAtLevel h k t := by
  unfold nodesAtLevel
  rw [List.filter_cons]
  simp [hx]

theorem nodesAtLevel_cons_neg {h : Heap} {k x : Nat} (t : List Nat)
    (hx : ¬ k ≤ (h x).level) :
    nodesAtLevel h k (x :: t) = nodesAtLevel h k t := by
  unfold nodesAtLevel
  rw [List.filter_cons]
  simp [hx]

theorem delete_chainsN {s : SkipState} {es : List Nat} (G : Good s es)
    {U V : List Nat} {x : Nat} (hes : es = U ++ x :: V) :
    ∀ k, k ≤ 15 → chainNext (skiplist_delnode s x).nodes k
      (nodesAtLevel (skiplist_delnode s x).nodes k (U ++ V)) := by
  intro k hk
  have hUsub : ∀ e ∈ U, e ∈ es := by
    intro e he
    rw [hes]
    exact List.mem_append_left _ he
  have hVsub : ∀ e ∈ V, e ∈ es := by
    intro e he
    rw [hes]
    exact List.mem_append_right _ (List.mem_cons_of_mem _ he)
  have hlist : nodesAtLevel (skiplist_delnode s x).nodes k (U ++ V)
      = nodesAtLevel s.nodes k U ++ nodesAtLevel s.nodes k V := by
    rw [nodesAtLevel_append,
      nodesAtLevel_congr k (fun e _ => delnode_level s x e),
      nodesAtLevel_congr k (fun e _ => delnode_level s x e)]
  rw [hlist]
  by_cases hkm : k ≤ (s.nodes x).level
  · have hsplitC : nodesAtLevel s.nodes k es
        = nodesAtLevel s.nodes k U ++ x :: nodesAtLevel s.nodes k V := by
      rw [hes, nodesAtLevel_append, nodesAtLevel_cons_pos _ hkm]
    have hch := G.chainsN k hk
    rw [hsplitC] at hch
    have hchP := G.chainsP k hk
    rw [hsplitC] at hchP
    have hxprev : (s.nodes x).prev k = (nodesAtLevel s.nodes k U).getLastD sentinelId :=
      chainPrev_mid_prev hchP
    have hxnext : (s.nodes x).next k = (nodesAtLevel s.nodes k V).headD sentinelId :=
      chainNext_mid_next hch
    apply chainNext_delete hch
    · rw [← hsplitC]
      exact nodesAtLevel_nodup _ _ G.nodup
    · intro habs
      exact G.noSent (hUsub _ ((nodesAtLevel_sublist _ _ _).subset habs))
    · intro habs
      exact G.noSent (hVsub _ ((nodesAtLevel_sublist _ _ _).subset habs))
    · rw [delnode_next, if_pos ⟨hkm, hxprev.symm⟩, hxnext]
    · intro a hane
      rw [delnode_next, if_neg]
      intro hcond
      rw [hxprev] at hcond
      exact hane hcond.2
  · have hsplitC : nodesAtLevel s.nodes k es
        = nodesAtLevel s.nodes k U ++ nodesAtLevel s.nodes k V := by
      rw [hes, nodesAtLevel_append, nodesAtLevel_cons_neg _ hkm]
    have hch := G.chainsN k hk
    rw [hsplitC] at hch
    unfold chainNext at hch ⊢
    apply chain'_next_congr hch
    intro a _
    rw [delnode_next, if_neg]
    intro hcond
    exact hkm hcond.1

theorem delete_chainsP {s : SkipState} {es : List Nat} (G : Good s es)
    {U V : List Nat} {x : Nat} (hes : es = U ++ x :: V) :
    ∀ k, k ≤ 15 → chainPrev (skiplist_delnode s x).nodes k
      (nodesAtLevel (skiplist_delnode s x).nodes k (U ++ V)) := by
  intro k hk
  have hUsub : ∀ e ∈ U, e ∈ es := by
    intro e he
    rw [hes]
    exact List.mem_append_left _ he
  have hVsub : ∀ e ∈ V, e ∈ es := by
    intro e he
    rw [hes]
    exact List.mem_append_right _ (List.mem_cons_of_mem _ he)
  have hlist : nodesAtLevel (skiplist_delnode s x).nodes k (U ++ V)
      = nodesAtLevel s.nodes k U ++ nodesAtLevel s.nodes k V := by
    rw [nodesAtLevel_append,
      nodesAtLevel_congr k (fun e _ => delnode_level s x e),
      nodesAtLevel_congr k (fun e _ => delnode_level s x e)]
  rw [hlist]
  by_cases hkm : k ≤ (s.nodes x).level
  · have hsplitC : nodesAtLevel s.nodes k es
        = nodesAtLevel s.nodes k U ++ x :: nodesAtLevel s.nodes k V := by
      rw [hes, nodesAtLevel_append, nodesAtLevel_cons_pos _ hkm]
    have hch := G.chainsN k hk
    rw [hsplitC] at hch
    have hchP := G.chainsP k hk
    rw [hsplitC] at hchP
    have hxprev : (s.nodes x).prev k = (nodesAtLevel s.nodes k U).getLastD sentinelId :=
      chainPrev_mid_prev hchP
    have hxnext : (s.nodes x).next k = (nodesAtLevel s.nodes k V).headD sentinelId :=
      chainNext_mid_next hch
    apply chainPrev_delete hchP
    · rw [← hsplitC]
      exact nodesAtLevel_nodup _ _ G.nodup
    · intro habs
      exact G.noSent (hUsub _ ((nodesAtLevel_sublist _ _ _).subset habs))
    · intro habs
      exact G.noSent (hVsub _ ((nodesAtLevel_sublist _ _ _).subset habs))
    · rw [delnode_prev, if_pos ⟨hkm, hxnext.symm⟩, hxprev]
    · intro b hbne
      rw [delnode_prev, if_neg]
      intro hcond
      rw [hxnext] at hcond
      exact hbne hcond.2
  · have hsplitC : nodesAtLevel s.nodes k es
        = nodesAtLevel s.nodes k U ++ nodesAtLevel s.nodes k V := by
      rw [hes, nodesAtLevel_append, nodesAtLevel_cons_neg _ hkm]
    have hch := G.chainsP k hk
    rw [hsplitC] at hch
    unfold chainPrev at hch ⊢
    apply chain'_prev_congr hch
    intro b _
    rw [delnode_prev, if_neg]
    intro hcond
    exact hkm hcond.1

theorem chain_first {h : Heap} {k c : Nat} {rest : List Nat}
    (hch : chainNext h k (c :: rest)) : (h sentinelId).next k = c := by
  unfold chainNext cyc at hch
  rw [List.cons_append] at hch
  rcases List.chain'_cons.mp hch with ⟨h1, _⟩
  exact h1

theorem selfloop_next_iff {h2 : Heap} {es2 : List Nat}
    (hch : ∀ k, k ≤ 15 → chainNext h2 k (nodesAtLevel h2 k es2))
    (hns : sentinelId ∉ es2) {j : Nat} (hj : j ≤ 15) :
    (h2 sentinelId).next j = sentinelId ↔ nodesAtLevel h2 j es2 = [] := by
  constructor
  · intro hsl
    cases hl : nodesAtLevel h2 j es2 with
    | nil => rfl
    | cons c rest =>
      exfalso
      have hc := hch j hj
      rw [hl] at hc
      have hfirst := chain_first hc
      rw [hsl] at hfirst
      have hcm : c ∈ nodesAtLevel h2 j es2 := by
        rw [hl]
        exact List.mem_cons_self _ _
      rw [← hfirst] at hcm
      exact hns ((nodesAtLevel_sublist _ _ _).subset hcm)
  · intro hnil
    have hc := hch j hj
    rw [hnil] at hc
    exact chainNext_nil_next hc

theorem shrinkLevel_eq {h2 : Heap} {es2 : List Nat}
    (hchN : ∀ k, k ≤ 15 → chainNext h2 k (nodesAtLevel h2 k es2))
    (hchP : ∀ k, k ≤ 15 → chainPrev h2 k (nodesAtLevel h2 k es2))
    (hns : sentinelId ∉ es2) :
    ∀ m, m ≤ 15 → maxLevel h2 es2 ≤ m → shrinkLevel h2 m = maxLevel h2 es2 := by
  intro m
  induction m with
  | zero =>
    intro _ hle
    rw [shrinkLevel]
    omega
  | succ m ih =>
    intro hm15 hle
    rw [shrinkLevel]
    by_cases hmax : maxLevel h2 es2 < m + 1
    · have hempty : nodesAtLevel h2 (m + 1) es2 = [] := nodesAtLevel_above_max hmax
      have hn : (h2 sentinelId).next (m + 1) = sentinelId := by
        have hc := hchN (m + 1) hm15
        rw [hempty] at hc
        exact chainNext_nil_next hc
      have hp : (h2 sentinelId).prev (m + 1) = sentinelId := by
        have hc := hchP (m + 1) hm15
        rw [hempty] at hc
        exact chainPrev_nil_prev hc
      rw [if_pos ⟨hn, hp⟩]
      exact ih (by omega) (by omega)
    · have hmax2 : maxLevel h2 es2 = m + 1 := by omega
      have hne : nodesAtLevel h2 (m + 1) es2 ≠ [] := by
        intro habs
        have hesne : es2 ≠ [] := by
          intro h0
          rw [h0] at hmax2
          rw [maxLevel_nil] at hmax2
          omega
        rcases maxLevel_attained hesne with ⟨e, hm2, hee⟩
        have hmem : e ∈ nodesAtLevel h2 (m + 1) es2 :=
          mem_nodesAtLevel.mpr ⟨hm2, by rw [hee, hmax2]⟩
        rw [habs] at hmem
        cases hmem
      rw [if_neg (fun hcond => hne ((selfloop_next_iff hchN hns hm15).mp hcond.1))]
      exact hmax2.symm

theorem delnode_good {s : SkipState} {es : List Nat} (G : Good s es) {x : Nat} (hx : x ∈ es) :
    Good (skiplist_delnode s x) (es.erase x) := by
  rcases List.append_of_mem hx with ⟨U, V, hes⟩
  have hxU : x ∉ U := by
    have hnd := G.nodup
    rw [hes] at hnd
    rcases List.nodup_append.mp hnd with ⟨_, _, hdisj⟩
    intro habs
    exact hdisj habs (List.mem_cons_self _ _)
  have herase : es.erase x = U ++ V := by
    rw [hes, List.erase_append_right _ hxU, List.erase_cons_head]
  have hUV : ∀ e ∈ U ++ V, e ∈ es := by
    intro e he
    rw [hes]
    rcases List.mem_append.mp he with h' | h'
    · exact List.mem_append_left _ h'
    · exact List.mem_append_right _ (List.mem_cons_of_mem _ h')
  rw [herase]
  have hchN2 := delete_chainsN G hes
  have hchP2 := delete_chainsP G hes
  have hnd2 : (U ++ V).Nodup := by
    have hnd := G.nodup
    rw [hes] at hnd
    exact (List.nodup_cons.mp (List.nodup_middle.mp hnd)).2
  have hns2 : sentinelId ∉ U ++ V := fun habs => G.noSent (hUV _ habs)
  have hmaxUV : maxLevel s.nodes (U ++ V) ≤ s.listLevel := by
    rw [G.lvlEq]
    exact maxLevel_le (fun e he => le_maxLevel_of_mem (hUV e he))
  have hmcongr : maxLevel (skiplist_delnode s x).nodes (U ++ V)
      = maxLevel s.nodes (U ++ V) :=
    maxLevel_congr (fun e _ => delnode_level s x e)
  constructor
  · exact hnd2
  · exact hns2
  · intro e he
    exact G.bounded e (hUV e he)
  · exact G.freshPos
  · intro e he
    rw [delnode_level]
    exact G.lvl15 e (hUV e he)
  · intro e he
    rw [delnode_key]
    exact G.keyLt e (hUV e he)
  · intro y
    rw [delnode_key]
    exact G.allKeys y
  · rw [delnode_key]
    exact G.sentKey
  · rw [delnode_level]
    exact G.sentLevel
  · rw [delnode_value]
    exact G.sentValue
  · have hsub : (U ++ V).Sublist es := by
      rw [hes]
      exact List.Sublist.append (List.Sublist.refl U) (List.sublist_cons_self x V)
    have hs := G.sorted.sublist hsub
    apply List.Pairwise.imp_of_mem ?_ hs
    intro a b _ _ hr
    rw [delnode_key, delnode_key]
    exact hr
  · show (skiplist_delnode s x).listLevel = _
    have hgoal : (skiplist_delnode s x).listLevel
        = if (s.nodes x).level = s.listLevel
          then shrinkLevel (skiplist_delnode s x).nodes ((s.nodes x).level)
          else s.listLevel := rfl
    rw [hgoal]
    by_cases hmx : (s.nodes x).level = s.listLevel
    · rw [if_pos hmx]
      exact (shrinkLevel_eq hchN2 hchP2 hns2 ((s.nodes x).level)
        (G.lvl15 x hx) (by rw [hmcongr]; omega)).symm ▸ rfl
    · rw [if_neg hmx]
      have hmlt : (s.nodes x).level < s.listLevel := by
        have : (s.nodes x).level ≤ s.listLevel := by
          rw [G.lvlEq]
          exact le_maxLevel_of_mem hx
        omega
      have hesne : es ≠ [] := by
        intro h0
        rw [h0] at hx
        cases hx
      rcases maxLevel_attained hesne with ⟨e2, he2, hle2⟩
      have he2LL : (s.nodes e2).level = s.listLevel := by
        rw [hle2, G.lvlEq]
      have he2x : e2 ≠ x := by
        intro habs
        rw [habs] at he2LL
        omega
      have he2UV : e2 ∈ U ++ V := by
        have := he2
        rw [hes] at this
        rcases List.mem_append.mp this with h' | h'
        · exact List.mem_append_left _ h'
        · rcases List.mem_cons.mp h' with h2 | h2
          · exact absurd h2 he2x
          · exact List.mem_append_right _ h2
      have hge : s.listLevel ≤ maxLevel s.nodes (U ++ V) := by
        rw [← he2LL]
        exact le_maxLevel_of_mem he2UV
      rw [hmcongr]
      omega
  · exact hchN2
  · exact hchP2

/-! ### The initial state, traversal, and reachability -/

theorem good_init : Good initState [] := by
  constructor
  · exact List.nodup_nil
  · simp
  · intro e he
    cases he
  · show 0 < 1
    omega
  · intro e he
    cases he
  · intro e he
    cases he
  · intro x
    show (initState.nodes x).key ≤ U64MAX
    unfold initState
    by_cases hx : x = sentinelId
    · simp only [hx, if_pos rfl]
      exact le_rfl
    · simp only [if_neg hx]
      show 0 ≤ U64MAX
      omega
  · rfl
  · rfl
  · rfl
  · exact List.Pairwise.nil
  · rfl
  · intro k _
    show List.Chain' (nextRel initState.nodes k) (cyc (nodesAtLevel initState.nodes k []))
    show List.Chain' (nextRel initState.nodes k) [sentinelId, sentinelId]
    refine List.chain'_cons.mpr ⟨rfl, ?_⟩
    exact List.chain'_singleton _
  · intro k _
    show List.Chain' (prevRel initState.nodes k) (cyc (nodesAtLevel initState.nodes k []))
    show List.Chain' (prevRel initState.nodes k) [sentinelId, sentinelId]
    refine List.chain'_cons.mpr ⟨rfl, ?_⟩
    exact List.chain'_singleton _

theorem traverseNext_succ (h : Heap) (k p f : Nat) :
    traverseNext h k p (f + 1) =
      (if (h p).next k = sentinelId then some []
       else Option.map (fun l => (h p).next k :: l) (traverseNext h k ((h p).next k) f)) := rfl

theorem traverseNext_of_chain {h : Heap} {k : Nat} :
    ∀ (l : List Nat) (p : Nat) (f : Nat),
      List.Chain' (nextRel h k) (p :: (l ++ [sentinelId])) →
      sentinelId ∉ l →
      l.length < f →
      traverseNext h k p f = some l := by
  intro l
  induction l with
  | nil =>
    intro p f hch _ hf
    cases f with
    | zero => omega
    | succ f2 =>
      have hstep : (h p).next k = sentinelId := by
        rcases List.chain'_cons.mp hch with ⟨h1, _⟩
        exact h1
      rw [traverseNext_succ, if_pos hstep]
  | cons a t ih =>
    intro p f hch hns hf
    cases f with
    | zero => simp at hf
    | succ f2 =>
      have hstep : (h p).next k = a := by
        rw [List.cons_append] at hch
        rcases List.chain'_cons.mp hch with ⟨h1, _⟩
        exact h1
      have htl : List.Chain' (nextRel h k) (a :: (t ++ [sentinelId])) := by
        rw [List.cons_append] at hch
        rcases List.chain'_cons.mp hch with ⟨_, h2⟩
        exact h2
      have hans : a ≠ sentinelId := by
        intro habs
        exact hns (by rw [← habs]; exact List.mem_cons_self _ _)
      rw [traverseNext_succ, hstep, if_neg hans,
        ih a f2 htl (fun habs => hns (List.mem_cons_of_mem _ habs)) (by simp at hf; omega)]
      rfl

theorem traverseNext_mono {h : Heap} {k : Nat} :
    ∀ {f p l}, traverseNext h k p f = some l →
      traverseNext h k p (f + 1) = some l := by
  intro f
  induction f with
  | zero =>
    intro p l hc
    cases hc
  | succ f ih =>
    intro p l hc
    rw [traverseNext_succ] at hc
    rw [traverseNext_succ]
    by_cases hcond : (h p).next k = sentinelId
    · rw [if_pos hcond] at hc
      rw [if_pos hcond]
      exact hc
    · rw [if_neg hcond] at hc
      rw [if_neg hcond]
      cases hrec : traverseNext h k ((h p).next k) f with
      | none =>
        rw [hrec] at hc
        cases hc
      | some l2 =>
        rw [hrec] at hc
        rw [ih hrec]
        exact hc

theorem traverseNext_mono_le {h : Heap} {k f f' : Nat} {p : Nat} {l : List Nat}
    (hle : f ≤ f') (hs : traverseNext h k p f = some l) :
    traverseNext h k p f' = some l := by
  induction hle with
  | refl => exact hs
  | step _ ih => exact traverseNext_mono ih

theorem good_chainList {s : SkipState} {es : List Nat} (G : Good s es) {k : Nat}
    (hk : k ≤ 15) {f : Nat} (hf : (nodesAtLevel s.nodes k es).length < f) :
    chainList s k f = some (nodesAtLevel s.nodes k es) := by
  unfold chainList
  apply traverseNext_of_chain
  · have hc := G.chainsN k hk
    unfold chainNext cyc at hc
    exact hc
  · intro habs
    exact G.noSent ((nodesAtLevel_sublist _ _ _).subset habs)
  · exact hf

theorem chainList_unique {s : SkipState} {k f f' : Nat} {l l' : List Nat}
    (h1 : chainList s k f = some l) (h2 : chainList s k f' = some l') : l = l' := by
  have hm1 : chainList s k (max f f') = some l :=
    traverseNext_mono_le (le_max_left _ _) h1
  have hm2 : chainList s k (max f f') = some l' :=
    traverseNext_mono_le (le_max_right _ _) h2
  rw [hm1] at hm2
  exact Option.some_inj.mp hm2

theorem linked_iff {s : SkipState} {es : List Nat} (G : Good s es) {e : Nat} :
    Linked s e ↔ e ∈ es := by
  have hcl : chainList s 0 (es.length + 1) = some es := by
    have := good_chainList G (k := 0) (by omega)
      (f := es.length + 1) (by rw [nodesAtLevel_zero]; omega)
    rw [nodesAtLevel_zero] at this
    exact this
  constructor
  · rintro ⟨l, f, hc, hel⟩
    rw [chainList_unique hc hcl] at hel
    exact hel
  · intro he
    exact ⟨es, es.length + 1, hcl, he⟩

theorem searchLoop_mono {h : Heap} {key f : Nat} :
    ∀ {k p upd r}, searchLoop h key f k p upd = some r →
      searchLoop h key (f + 1) k p upd = some r := by
  intro k
  induction k with
  | zero =>
    intro p upd r hc
    rw [searchLoop] at hc
    rw [searchLoop]
    cases hw : walkLevel h key 0 p f with
    | none =>
      rw [hw] at hc
      cases hc
    | some p2 =>
      rw [hw] at hc
      rw [walkLevel_mono hw]
      exact hc
  | succ k ih =>
    intro p upd r hc
    rw [searchLoop] at hc
    rw [searchLoop]
    cases hw : walkLevel h key (k + 1) p f with
    | none =>
      rw [hw] at hc
      cases hc
    | some p2 =>
      rw [hw] at hc
      rw [walkLevel_mono hw]
      exact ih hc

theorem skiplist_insert_mono {s : SkipState} {key value seed f : Nat} {r : SkipState × Nat}
    (hc : skiplist_insert s key value seed f = some r) :
    skiplist_insert s key value seed (f + 1) = some r := by
  unfold skiplist_insert at hc ⊢
  cases hs : searchLoop s.nodes key f s.listLevel sentinelId (fun _ => sentinelId) with
  | none =>
    rw [hs] at hc
    cases hc
  | some upd =>
    rw [hs] at hc
    rw [searchLoop_mono hs]
    exact hc

theorem skiplist_insert_mono_le {s : SkipState} {key value seed f f' : Nat}
    {r : SkipState × Nat} (hle : f ≤ f')
    (hc : skiplist_insert s key value seed f = some r) :
    skiplist_insert s key value seed f' = some r := by
  induction hle with
  | refl => exact hc
  | step _ ih => exact skiplist_insert_mono ih

theorem searchLoop_none {h : Heap} {key : Nat} (hall : ∀ x, (h x).key ≤ key)
    (f k : Nat) (p : Nat) (upd : Nat → Nat) :
    searchLoop h key f k p upd = none := by
  rw [searchLoop, walkLevel_none hall]

/-- Inserting a key equal to the sentinel key never completes: the search
loop cycles through the circular chain forever, whatever the fuel. -/
theorem insert_maxkey_none {s : SkipState} {es : List Nat} (G : Good s es)
    (value seed f : Nat) :
    skiplist_insert s U64MAX value seed f = none := by
  unfold skiplist_insert
  rw [searchLoop_none G.allKeys]

/-- Every reachable state satisfies the structural invariant for some
chain-ordered list of linked nodes. -/
theorem reachable_good {s : SkipState} (hr : Reachable s) : ∃ es, Good s es := by
  induction hr with
  | init => exact ⟨[], good_init⟩
  | ins hr2 hkey heq ih =>
    rename_i s0 s' q key value seed f
    rcases ih with ⟨es, G⟩
    by_cases hk : key < U64MAX
    · have hmono := skiplist_insert_mono_le (le_max_left f (es.length + 1)) heq
      have hspec := @insert_spec s0 es key value seed (max f (es.length + 1)) G hk
        (by omega : es.length < max f (es.length + 1))
      rw [hspec] at hmono
      have hpair := Option.some_inj.mp hmono
      have hs' : insertedState s0 key value seed es = s' := congrArg Prod.fst hpair
      rw [← hs']
      exact ⟨_, insert_good G hk value seed⟩
    · exfalso
      have hkeq : key = U64MAX := by
        unfold U64MAX at hk ⊢
        omega
      rw [hkeq] at heq
      rw [insert_maxkey_none G value seed f] at heq
      cases heq
  | del hr2 hlink ih =>
    rcases ih with ⟨es, G⟩
    rename_i s0 e
    exact ⟨_, delnode_good G ((linked_iff G).mp hlink)⟩

/-! ### Derived characterizations used by the claim theorems -/

theorem insert_characterize {s s' : SkipState} {q key value seed f : Nat} {es : List Nat}
    (G : Good s es) (hk : key < U64MAX)
    (heq : skiplist_insert s key value seed f = some (s', q)) :
    s' = insertedState s key value seed es ∧ q = s.fresh := by
  have hmono := skiplist_insert_mono_le (le_max_left f (es.length + 1)) heq
  have hspec := @insert_spec s es key value seed (max f (es.length + 1)) G hk
    (by omega : es.length < max f (es.length + 1))
  rw [hspec] at hmono
  have hpair := Option.some_inj.mp hmono
  exact ⟨(congrArg Prod.fst hpair).symm, (congrArg Prod.snd hpair).symm⟩

/-- Any key at or above the sentinel key makes the search loop cycle
forever: the insert never completes, whatever the fuel. -/
theorem insert_bigkey_none {s : SkipState} {es : List Nat} (G : Good s es)
    {key : Nat} (hk : U64MAX ≤ key) (value seed f : Nat) :
    skiplist_insert s key value seed f = none := by
  unfold skiplist_insert
  rw [searchLoop_none (fun x => le_trans (G.allKeys x) hk)]

/-- Concrete run: insert key 5 (seed 4, level 1) into a fresh list. -/
def w1 : SkipState := ((skiplist_insert initState 5 7 4 10).getD (initState, 0)).1

theorem w1eq : skiplist_insert initState 5 7 4 10 = some (w1, 1) := rfl

theorem w1r : Reachable w1 := Reachable.ins Reachable.init (by decide) w1eq

/-- Then insert key 6 (seed 16, level 2): the list level grows to 2. -/
def w2 : SkipState := ((skiplist_insert w1 6 8 16 10).getD (initState, 0)).1

theorem w2eq : skiplist_insert w1 6 8 16 10 = some (w2, 2) := rfl

theorem w2r : Reachable w2 := Reachable.ins w1r (by decide) w2eq

/-- Then delete node 1 (level 1): only the level-2 node 2 remains. -/
def w3 : SkipState := skiplist_delnode w2 1

theorem w3link : Linked w2 1 := ⟨[1, 2], 10, rfl, by decide⟩

theorem w3r : Reachable w3 := Reachable.del w2r w3link

/-- FIFO scenario: key 10 value 101, then key 10 value 202. -/
def u1 : SkipState := ((skiplist_insert initState 10 101 1 10).getD (initState, 0)).1

theorem u1eq : skiplist_insert initState 10 101 1 10 = some (u1, 1) := rfl

theorem u1r : Reachable u1 := Reachable.ins Reachable.init (by decide) u1eq

def u2 : SkipState := ((skiplist_insert u1 10 202 1 10).getD (initState, 0)).1

theorem u2eq : skiplist_insert u1 10 202 1 10 = some (u2, 2) := rfl

/-! ### Claim theorems -/

/-- C1: in every state reachable by inserts and deletes from a fresh list,
and for every level k at most the list level, following next[k] from the
sentinel returns to the sentinel (the traversal terminates with a finite
chain) and the keys visited along the chain are non-decreasing; insert and
delete preserve this circular sorted-chain invariant. -/
theorem C1_circular_sorted_chains {s : SkipState} (hr : Reachable s) {k : Nat}
    (hk : k ≤ s.listLevel) :
    ∃ l f, chainList s k f = some l ∧
      List.Pairwise (fun a b => a ≤ b) (l.map fun e => (s.nodes e).key) := by
  rcases reachable_good hr with ⟨es, G⟩
  have hk15 : k ≤ 15 := le_trans hk (good_listLevel_le15 G)
  refine ⟨nodesAtLevel s.nodes k es, (nodesAtLevel s.nodes k es).length + 1,
    good_chainList G hk15 (by omega), ?_⟩
  rw [List.pairwise_map]
  exact G.sorted.sublist (nodesAtLevel_sublist _ _ _)

theorem C1_circular_sorted_chains_witness :
    (1 ≤ w2.listLevel) ∧
    ∃ l f, chainList w2 1 f = some l ∧
      List.Pairwise (fun a b => a ≤ b) (l.map fun e => (w2.nodes e).key) :=
  ⟨by decide, C1_circular_sorted_chains w2r (by decide)⟩

/-- C10: the sentinel's key, level and value fields are never written by
insert or delete: in every reachable state the sentinel key is still the
maximum 64-bit value, its level 0 and its value empty. -/
theorem C10_sentinel_immutable {s : SkipState} (hr : Reachable s) :
    (s.nodes sentinelId).key = U64MAX ∧ (s.nodes sentinelId).level = 0 ∧
    (s.nodes sentinelId).value = 0 := by
  rcases reachable_good hr with ⟨es, G⟩
  exact ⟨G.sentKey, G.sentLevel, G.sentValue⟩

theorem C10_sentinel_immutable_witness :
    (w2.nodes sentinelId).key = U64MAX ∧ (w2.nodes sentinelId).level = 0 ∧
    (w2.nodes sentinelId).value = 0 :=
  C10_sentinel_immutable w2r

/-- C2: in every reachable state the list level equals the maximum level
field over the currently linked nodes (0 when none); a completed insert
raises the list level by at most one, and when the randomized level exceeds
the current height the height grows by exactly one with the sentinel as the
new node's predecessor at the new top level; a delete leaves the list level
equal to the maximum level over the remaining linked nodes. -/
theorem C2_listLevel_max {s : SkipState} (hr : Reachable s) :
    (∃ l f, chainList s 0 f = some l ∧ s.listLevel = maxLevel s.nodes l) ∧
    (∀ key value seed f s' q, key < 2 ^ 64 →
      skiplist_insert s key value seed f = some (s', q) →
      s'.listLevel ≤ s.listLevel + 1 ∧
      (s.listLevel < randomLevel seed →
        s'.listLevel = s.listLevel + 1 ∧ (s'.nodes q).prev s'.listLevel = sentinelId)) ∧
    (∀ e, Linked s e →
      ∃ l f, chainList (skiplist_delnode s e) 0 f = some l ∧
        (skiplist_delnode s e).listLevel = maxLevel (skiplist_delnode s e).nodes l) := by
  rcases reachable_good hr with ⟨es, G⟩
  refine ⟨?_, ?_, ?_⟩
  · refine ⟨es, es.length + 1, ?_, ?_⟩
    · have := good_chainList G (k := 0) (by omega)
        (f := es.length + 1) (by rw [nodesAtLevel_zero]; omega)
      rw [nodesAtLevel_zero] at this
      exact this
    · exact G.lvlEq
  · intro key value seed f s' q hkey heq
    have hk : key < U64MAX := by
      by_contra hk2
      rw [insert_bigkey_none G (by omega) value seed f] at heq
      cases heq
    rcases insert_characterize G hk heq with ⟨hs', hq⟩
    subst hs'
    subst hq
    constructor
    · show (if s.listLevel < randomLevel seed then s.listLevel + 1 else s.listLevel) ≤ _
      by_cases hgrow : s.listLevel < randomLevel seed
      · rw [if_pos hgrow]
      · rw [if_neg hgrow]
        omega
    · intro hgrow
      have hlvl : (insertedState s key value seed es).listLevel = s.listLevel + 1 := by
        show (if s.listLevel < randomLevel seed then s.listLevel + 1 else s.listLevel) = _
        rw [if_pos hgrow]
      refine ⟨hlvl, ?_⟩
      rw [hlvl, inserted_prev G key value seed, if_pos ?_, if_pos rfl]
      · exact updSpec_above G key (by omega)
      · show s.listLevel + 1 ≤ insLevel s seed
        unfold insLevel
        rw [if_pos hgrow]
  · intro e hlink
    have hmem : e ∈ es := (linked_iff G).mp hlink
    have G2 := delnode_good G hmem
    refine ⟨es.erase e, (es.erase e).length + 1, ?_, ?_⟩
    · have := good_chainList G2 (k := 0) (by omega)
        (f := (es.erase e).length + 1) (by rw [nodesAtLevel_zero]; omega)
      rw [nodesAtLevel_zero] at this
      exact this
    · exact G2.lvlEq

theorem C2_listLevel_max_witness :
    (∃ l f, chainList w1 0 f = some l ∧ w1.listLevel = maxLevel w1.nodes l) ∧
    (w2.listLevel ≤ w1.listLevel + 1 ∧
      (w1.listLevel < randomLevel 16 →
        w2.listLevel = w1.listLevel + 1 ∧ (w2.nodes 2).prev w2.listLevel = sentinelId)) :=
  ⟨(C2_listLevel_max w1r).1,
   (C2_listLevel_max w1r).2.1 6 8 16 10 w2 2 (by decide) w2eq⟩

/-- C3: insert places the new node after every already-linked node whose key
is at most the inserted key — the level-0 chain of the post state is the old
chain split at the last key ≤ target with the new handle in the middle — and
in particular inserting the same key twice (value 101 then value 202) leaves
the level-0 chain visiting the first-inserted node before the second. -/
theorem C3_fifo_placement {s : SkipState} (hr : Reachable s) :
    (∀ key value seed f s' q, key < 2 ^ 64 →
      skiplist_insert s key value seed f = some (s', q) →
      ∃ l f1 f2, chainList s 0 f1 = some l ∧
        chainList s' 0 f2 = some
          (l.takeWhile (fun e => decide ((s.nodes e).key ≤ key)) ++
            q :: l.dropWhile (fun e => decide ((s.nodes e).key ≤ key)))) ∧
    (chainList u2 0 10 = some [1, 2] ∧
      (u2.nodes 1).key = 10 ∧ (u2.nodes 2).key = 10 ∧
      (u2.nodes 1).value = 101 ∧ (u2.nodes 2).value = 202) := by
  constructor
  · intro key value seed f s' q hkey heq
    rcases reachable_good hr with ⟨es, G⟩
    have hk : key < U64MAX := by
      by_contra hk2
      rw [insert_bigkey_none G (by omega) value seed f] at heq
      cases heq
    rcases insert_characterize G hk heq with ⟨hs', hq⟩
    subst hs'
    subst hq
    have G2 := insert_good G hk value seed
    refine ⟨es, es.length + 1,
      (takeLe s.nodes key es ++ s.fresh :: dropLe s.nodes key es).length + 1, ?_, ?_⟩
    · have := good_chainList G (k := 0) (by omega) (f := es.length + 1)
        (by rw [nodesAtLevel_zero]; omega)
      rw [nodesAtLevel_zero] at this
      exact this
    · have := good_chainList G2 (k := 0) (by omega)
        (f := (takeLe s.nodes key es ++ s.fresh :: dropLe s.nodes key es).length + 1)
        (by rw [nodesAtLevel_zero]; omega)
      rw [nodesAtLevel_zero] at this
      exact this
  · exact ⟨rfl, rfl, rfl, rfl, rfl⟩

theorem C3_fifo_placement_witness :
    ∃ l f1 f2, chainList u1 0 f1 = some l ∧
      chainList u2 0 f2 = some
        (l.takeWhile (fun e => decide ((u1.nodes e).key ≤ 10)) ++
          2 :: l.dropWhile (fun e => decide ((u1.nodes e).key ≤ 10))) :=
  (C3_fifo_placement u1r).1 10 202 1 10 u2 2 (by decide) u2eq

/-- Modelled from the spec wording of the randomization rule: count how many
times the lowest two bits of the entropy are zero while the value is still
nonzero, shifting right by two each time; 32 steps cover any 64-bit value;
the returned level is the count capped at 15. -/
def specCount : Nat → Nat → Nat
  | 0, _ => 0
  | f + 1, r => if r ≠ 0 ∧ r % 4 = 0 then specCount f (r / 4) + 1 else 0

/-- Modelled from the spec: the level drawn from one entropy value. -/
def specRandomLevel (entropy : Nat) : Nat := min (specCount 32 entropy) 15

theorem specCount_zero_seed : ∀ f, specCount f 0 = 0
  | 0 => rfl
  | f + 1 => by
    rw [specCount]
    simp

theorem rlAux_specCount : ∀ (f r l : Nat), rlAux f r l = l + specCount f r := by
  intro f
  induction f with
  | zero =>
    intro r l
    rw [rlAux, specCount]
    omega
  | succ f ih =>
    intro r l
    rw [rlAux, specCount]
    by_cases hc : r ≠ 0 ∧ r % 4 = 0
    · rw [if_pos hc, if_pos hc, ih]
      omega
    · rw [if_neg hc, if_neg hc]
      omega

theorem specCount_fuel : ∀ (f f' r : Nat), r < 4 ^ f → r < 4 ^ f' →
    specCount f r = specCount f' r := by
  intro f
  induction f with
  | zero =>
    intro f' r hr _
    have hr0 : r = 0 := by simpa using hr
    rw [hr0, specCount_zero_seed, specCount_zero_seed]
  | succ f ih =>
    intro f' r hr hr'
    by_cases hc : r ≠ 0 ∧ r % 4 = 0
    · cases f' with
      | zero =>
        exfalso
        have hr0 : r = 0 := by simpa using hr'
        exact hc.1 hr0
      | succ f2 =>
        simp only [specCount]
        rw [if_pos hc, if_pos hc]
        congr 1
        apply ih f2 (r / 4)
        · rw [Nat.div_lt_iff_lt_mul (by omega : 0 < 4)]
          calc r < 4 ^ (f + 1) := hr
          _ = 4 ^ f * 4 := by ring
        · rw [Nat.div_lt_iff_lt_mul (by omega : 0 < 4)]
          calc r < 4 ^ (f2 + 1) := hr'
          _ = 4 ^ f2 * 4 := by ring
    · rw [specCount, if_neg hc]
      cases f' with
      | zero => rfl
      | succ f2 =>
        rw [specCount, if_neg hc]

theorem lt_four_pow (r : Nat) : r < 4 ^ r :=
  Nat.lt_pow_self (by omega) r

theorem specCount_ge : ∀ (t f r : Nat), 4 ^ t ∣ r → r ≠ 0 → r < 4 ^ f →
    t ≤ specCount f r := by
  intro t
  induction t with
  | zero =>
    intro f r _ _ _
    omega
  | succ t ih =>
    intro f r hdvd hne hlt
    have h4r : r % 4 = 0 := by
      have h4 : (4 : Nat) ∣ r :=
        dvd_trans (dvd_pow_self 4 (by omega : t + 1 ≠ 0)) hdvd
      omega
    have hge : 4 ≤ r := by
      rcases hdvd with ⟨m, hm⟩
      have hm0 : m ≠ 0 := by
        rintro rfl
        rw [Nat.mul_zero] at hm
        exact hne hm
      calc 4 ≤ 4 ^ (t + 1) := Nat.le_self_pow (by omega) 4
      _ ≤ 4 ^ (t + 1) * m := Nat.le_mul_of_pos_right _ (by omega)
      _ = r := hm.symm
    cases f with
    | zero =>
      exfalso
      have : r < 1 := by simpa using hlt
      omega
    | succ f2 =>
      rw [specCount, if_pos ⟨hne, h4r⟩]
      have hdvd2 : 4 ^ t ∣ r / 4 := by
        rcases hdvd with ⟨m, hm⟩
        refine ⟨m, ?_⟩
        rw [hm, pow_succ, show (4 : Nat) ^ t * 4 * m = 4 * (4 ^ t * m) by ring]
        exact Nat.mul_div_cancel_left _ (by omega)
      have hne2 : r / 4 ≠ 0 := by
        intro habs
        rw [Nat.div_eq_zero_iff (by omega : 0 < 4)] at habs
        omega
      have hlt2 : r / 4 < 4 ^ f2 := by
        rw [Nat.div_lt_iff_lt_mul (by omega : 0 < 4)]
        calc r < 4 ^ (f2 + 1) := hlt
        _ = 4 ^ f2 * 4 := by ring
      have := ih f2 (r / 4) hdvd2 hne2 hlt2
      omega

/-- C4: randomLevel is a pure function of its single 64-bit entropy value;
on every u64 input it returns exactly the spec-worded count of trailing zero
bit-pairs capped at 15; its result is always in [0, 15]; entropy 0 yields
level 0; and any nonzero entropy divisible by 4^30 (thirty or more trailing
zero bit-pairs) yields 15. -/
theorem C4_randomLevel_correct :
    (∀ r, r < 2 ^ 64 → randomLevel r = specRandomLevel r) ∧
    (∀ r, randomLevel r ≤ 15) ∧
    randomLevel 0 = 0 ∧
    (∀ r, r ≠ 0 → 4 ^ 30 ∣ r → randomLevel r = 15) := by
  refine ⟨?_, ?_, rfl, ?_⟩
  · intro r hr
    unfold randomLevel specRandomLevel
    rw [rlAux_specCount]
    simp only [Nat.zero_add]
    have hfe : specCount r r = specCount 32 r :=
      specCount_fuel r 32 r (lt_four_pow r)
        (by calc r < 2 ^ 64 := hr
        _ = 4 ^ 32 := by norm_num)
    rw [hfe]
    by_cases hx : specCount 32 r > 15
    · rw [if_pos hx, min_eq_right (by omega)]
    · rw [if_neg hx, min_eq_left (by omega)]
  · intro r
    unfold randomLevel
    by_cases hx : rlAux r r 0 > 15
    · rw [if_pos hx]
    · rw [if_neg hx]
      omega
  · intro r hne hdvd
    unfold randomLevel
    rw [rlAux_specCount]
    simp only [Nat.zero_add]
    have h30 : 30 ≤ specCount r r := specCount_ge 30 r r hdvd hne (lt_four_pow r)
    rw [if_pos (by omega)]

theorem C4_randomLevel_correct_witness :
    randomLevel 4096 = specRandomLevel 4096 ∧ randomLevel (4 ^ 31) = 15 :=
  ⟨C4_randomLevel_correct.1 4096 (by decide),
   C4_randomLevel_correct.2.2.2 (4 ^ 31) (by decide) ⟨4, by norm_num⟩⟩

/-- C5 counterexample: with generous fuel the insert of the maximum key
2^64-1 into a fresh list never completes (the search loop cycles forever),
while the same insert with key 2^64-2 completes at once — terminating for
every 64-bit key without restriction is false. -/
theorem C5_counterexample :
    skiplist_insert initState U64MAX 7 0 1000 = none ∧
    skiplist_insert initState (U64MAX - 1) 7 0 1000 ≠ none := by
  constructor
  · exact insert_bigkey_none good_init le_rfl 7 0 1000
  · intro habs
    have hsome : skiplist_insert initState (U64MAX - 1) 7 0 1000
        = some (insertedState initState (U64MAX - 1) 7 0 [], initState.fresh) :=
      insert_spec good_init (by unfold U64MAX; omega) (by norm_num)
    rw [hsome] at habs
    cases habs

/-- C5 (amended): from every reachable state, insert terminates and returns
the handle of a new node for every key strictly below the sentinel key
2^64-1 (arbitrary duplicate keys and values accepted), with an explicit
fuel bound; for key 2^64-1 itself, the search loop never exits, at any
fuel. -/
theorem C5_amended_insert_terminates {s : SkipState} (hr : Reachable s) :
    (∀ key value seed, key < U64MAX → ∃ b, ∀ f, b ≤ f →
      ∃ s', skiplist_insert s key value seed f = some (s', s.fresh)) ∧
    (∀ value seed f, skiplist_insert s U64MAX value seed f = none) := by
  rcases reachable_good hr with ⟨es, G⟩
  constructor
  · intro key value seed hk
    refine ⟨es.length + 1, fun f hf => ⟨insertedState s key value seed es, ?_⟩⟩
    exact insert_spec G hk (by omega)
  · intro value seed f
    exact insert_bigkey_none G le_rfl value seed f

theorem C5_amended_insert_terminates_witness :
    (∃ b, ∀ f, b ≤ f →
      ∃ s', skiplist_insert initState 5 7 4 f = some (s', initState.fresh)) ∧
    skiplist_insert initState U64MAX 7 0 1000 = none :=
  ⟨(C5_amended_insert_terminates Reachable.init).1 5 7 4 (by decide),
   (C5_amended_insert_terminates Reachable.init).2 7 0 1000⟩

/-- C6 counterexample: in the reachable state w3 the unique node 2 occupies
the top level 2 = list level, no other node remains at that level (indeed no
other node at all), yet deleting it drops the list level from 2 to 0 — a
decrease of two, not "exactly one". -/
theorem C6_counterexample :
    Reachable w3 ∧ w3.listLevel = 2 ∧ (w3.nodes 2).level = 2 ∧
    chainList w3 0 10 = some [2] ∧ Linked w3 2 ∧
    (skiplist_delnode w3 2).listLevel = 0 ∧
    chainList (skiplist_delnode w3 2) 0 10 = some [] := by
  exact ⟨w3r, rfl, rfl, rfl, ⟨[2], 10, rfl, by decide⟩, rfl, rfl⟩

/-- C6 (amended): when delete removes a node whose level equals the list
level, the new list level is the maximum level among the remaining linked
nodes (0 when none remain); when the old list level is positive it stays
unchanged exactly when another linked node still reaches it — and otherwise
it may drop by more than one, down to that maximum. -/
theorem C6_amended_top_delete {s : SkipState} (hr : Reachable s) {e : Nat}
    (hl : Linked s e) (htop : (s.nodes e).level = s.listLevel) :
    ∃ l f, chainList (skiplist_delnode s e) 0 f = some l ∧
      (skiplist_delnode s e).listLevel = maxLevel (skiplist_delnode s e).nodes l ∧
      (0 < s.listLevel →
        ((skiplist_delnode s e).listLevel = s.listLevel ↔
          ∃ e2 ∈ l, ((skiplist_delnode s e).nodes e2).level = s.listLevel)) := by
  rcases reachable_good hr with ⟨es, G⟩
  have hmem := (linked_iff G).mp hl
  have G2 := delnode_good G hmem
  refine ⟨es.erase e, (es.erase e).length + 1, ?_, G2.lvlEq, ?_⟩
  · have := good_chainList G2 (k := 0) (by omega) (f := (es.erase e).length + 1)
      (by rw [nodesAtLevel_zero]; omega)
    rw [nodesAtLevel_zero] at this
    exact this
  · intro hpos
    constructor
    · intro heq2
      rw [G2.lvlEq] at heq2
      have hne : es.erase e ≠ [] := by
        intro habs
        rw [habs, maxLevel_nil] at heq2
        omega
      rcases maxLevel_attained (h := (skiplist_delnode s e).nodes) hne with ⟨e2, hm2, hl2⟩
      exact ⟨e2, hm2, by rw [hl2, ← heq2]⟩
    · rintro ⟨e2, hm2, hl2⟩
      rw [G2.lvlEq]
      have h1 : s.listLevel ≤ maxLevel (skiplist_delnode s e).nodes (es.erase e) := by
        rw [← hl2]
        exact le_maxLevel_of_mem hm2
      have h2 : maxLevel (skiplist_delnode s e).nodes (es.erase e) ≤ s.listLevel := by
        rw [maxLevel_congr (fun e3 _ => delnode_level s e e3), G.lvlEq]
        exact maxLevel_le (fun e3 he3 => le_maxLevel_of_mem (List.mem_of_mem_erase he3))
      omega

theorem C6_amended_top_delete_witness :
    ∃ l f, chainList (skiplist_delnode w2 2) 0 f = some l ∧
      (skiplist_delnode w2 2).listLevel = maxLevel (skiplist_delnode w2 2).nodes l ∧
      (0 < w2.listLevel →
        ((skiplist_delnode w2 2).listLevel = w2.listLevel ↔
          ∃ e2 ∈ l, ((skiplist_delnode w2 2).nodes e2).level = w2.listLevel)) :=
  C6_amended_top_delete w2r ⟨[1, 2], 10, rfl, by decide⟩ rfl

/-- C8: every node handle returned by a completed insert has its level in
[0, 15], carries exactly the caller's key and value, sits on the level-j
chain precisely for j up to its level (level+1 chains), and at each such
level is doubly linked between its recorded predecessor and that
predecessor's former successor, with both directions updated on both
neighbors. -/
theorem C8_inserted_node_shape {s : SkipState} (hr : Reachable s)
    {key value seed f : Nat} {s' : SkipState} {q : Nat} (hkey : key < 2 ^ 64)
    (heq : skiplist_insert s key value seed f = some (s', q)) :
    (s'.nodes q).level ≤ 15 ∧ (s'.nodes q).key = key ∧ (s'.nodes q).value = value ∧
    (∀ j, j ≤ 15 →
      ((∃ l fl, chainList s' j fl = some l ∧ q ∈ l) ↔ j ≤ (s'.nodes q).level)) ∧
    (∀ j, j ≤ (s'.nodes q).level →
      (s'.nodes ((s'.nodes q).prev j)).next j = q ∧
      (s'.nodes ((s'.nodes q).next j)).prev j = q ∧
      (s'.nodes q).next j = (s.nodes ((s'.nodes q).prev j)).next j) := by
  rcases reachable_good hr with ⟨es, G⟩
  have hk : key < U64MAX := by
    by_contra hk2
    rw [insert_bigkey_none G (by omega) value seed f] at heq
    cases heq
  rcases insert_characterize G hk heq with ⟨hs', hq⟩
  subst hs'
  subst hq
  have G2 := insert_good G hk value seed
  have hlvlq : ((insertedState s key value seed es).nodes s.fresh).level
      = insLevel s seed := by
    rw [inserted_level, if_pos rfl]
  refine ⟨?_, ?_, ?_, ?_, ?_⟩
  · rw [hlvlq]
    exact insLevel_le15 G seed
  · rw [inserted_key, if_pos rfl]
  · rw [inserted_value, if_pos rfl]
  · intro j hj
    have hcl := good_chainList G2 hj
      (f := (nodesAtLevel (insertedState s key value seed es).nodes j
        (takeLe s.nodes key es ++ s.fresh :: dropLe s.nodes key es)).length + 1)
      (by omega)
    constructor
    · rintro ⟨l, fl, hc, hm⟩
      rw [chainList_unique hc hcl] at hm
      exact (mem_nodesAtLevel.mp hm).2
    · intro hle
      refine ⟨_, _, hcl, mem_nodesAtLevel.mpr ⟨?_, hle⟩⟩
      exact List.mem_append_right _ (List.mem_cons_self _ _)
  · intro j hj
    rw [hlvlq] at hj
    have hj15 : j ≤ 15 := le_trans hj (insLevel_le15 G seed)
    have hprevq : ((insertedState s key value seed es).nodes s.fresh).prev j
        = updSpec s.nodes key es j := by
      rw [inserted_prev G key value seed, if_pos hj, if_pos rfl]
    have hnextq : ((insertedState s key value seed es).nodes s.fresh).next j
        = (s.nodes (updSpec s.nodes key es j)).next j := by
      rw [inserted_next G key value seed, if_pos hj, if_pos rfl]
    refine ⟨?_, ?_, ?_⟩
    · rw [hprevq, inserted_next G key value seed, if_pos hj,
        if_neg (good_updSpec_ne G key), if_pos rfl]
    · have hsucc : ((insertedState s key value seed es).nodes s.fresh).next j
          = succSpec s.nodes key es j := by
        rw [hnextq, updSpec_next_eq (G.chainsN j hj15)]
      rw [hsucc, inserted_prev G key value seed, if_pos hj,
        if_neg (good_succSpec_ne G key),
        if_pos (by rw [updSpec_next_eq (G.chainsN j hj15)])]
    · rw [hprevq, hnextq]

theorem C8_inserted_node_shape_witness :
    (w1.nodes 1).level ≤ 15 ∧ (w1.nodes 1).key = 5 ∧ (w1.nodes 1).value = 7 ∧
    (∀ j, j ≤ 15 →
      ((∃ l fl, chainList w1 j fl = some l ∧ 1 ∈ l) ↔ j ≤ (w1.nodes 1).level)) ∧
    (∀ j, j ≤ (w1.nodes 1).level →
      (w1.nodes ((w1.nodes 1).prev j)).next j = 1 ∧
      (w1.nodes ((w1.nodes 1).next j)).prev j = 1 ∧
      (w1.nodes 1).next j = (initState.nodes ((w1.nodes 1).prev j)).next j) :=
  C8_inserted_node_shape Reachable.init (by decide) w1eq

/-- C9: inserting a key below the sentinel key and then immediately deleting
the returned handle restores the structure exactly: every other node's next
and prev pointers at every level — the sentinel's included — and the list
level all return to their values before the insert. -/
theorem C9_insert_then_delete_restores {s : SkipState} (hr : Reachable s)
    {key value seed f : Nat} {s' : SkipState} {q : Nat}
    (hkey : key < U64MAX)
    (heq : skiplist_insert s key value seed f = some (s', q)) :
    (skiplist_delnode s' q).listLevel = s.listLevel ∧
    ∀ y, y ≠ q → ∀ j,
      ((skiplist_delnode s' q).nodes y).next j = (s.nodes y).next j ∧
      ((skiplist_delnode s' q).nodes y).prev j = (s.nodes y).prev j := by
  rcases reachable_good hr with ⟨es, G⟩
  rcases insert_characterize G hkey heq with ⟨hs', hq⟩
  subst hs'
  subst hq
  have G2 := insert_good G hkey value seed
  have hqin : s.fresh ∈ takeLe s.nodes key es ++ s.fresh :: dropLe s.nodes key es :=
    List.mem_append_right _ (List.mem_cons_self _ _)
  have hfreshA : s.fresh ∉ takeLe s.nodes key es := fun habs =>
    Nat.lt_irrefl _ (G.bounded _ ((takeLe_sublist _ _ _).subset habs)).2
  have G3 := delnode_good G2 hqin
  have herase : (takeLe s.nodes key es ++ s.fresh :: dropLe s.nodes key es).erase s.fresh
      = es := by
    rw [List.erase_append_right _ hfreshA, List.erase_cons_head, takeLe_append_dropLe]
  rw [herase] at G3
  have hmq : ((insertedState s key value seed es).nodes s.fresh).level
      = insLevel s seed := by
    rw [inserted_level, if_pos rfl]
  constructor
  · rw [G3.lvlEq, G.lvlEq]
    apply maxLevel_congr
    intro e2 he2
    rw [delnode_level, inserted_level, if_neg (Nat.ne_of_lt (G.bounded e2 he2).2)]
  · intro y hy j
    have hprevq : ∀ i, i ≤ insLevel s seed →
        ((insertedState s key value seed es).nodes s.fresh).prev i
          = updSpec s.nodes key es i := by
      intro i hi
      rw [inserted_prev G key value seed, if_pos hi, if_pos rfl]
    have hnextq : ∀ i, i ≤ insLevel s seed →
        ((insertedState s key value seed es).nodes s.fresh).next i
          = (s.nodes (updSpec s.nodes key es i)).next i := by
      intro i hi
      rw [inserted_next G key value seed, if_pos hi, if_pos rfl]
    by_cases hj : j ≤ insLevel s seed
    · have hj15 : j ≤ 15 := le_trans hj (insLevel_le15 G seed)
      constructor
      · by_cases hyu : y = updSpec s.nodes key es j
        · rw [delnode_next, if_pos ⟨by rw [hmq]; exact hj, by rw [hprevq j hj]; exact hyu⟩,
            hnextq j hj, hyu]
        · rw [delnode_next,
            if_neg (fun hcond => hyu (by rw [← hprevq j hj]; exact hcond.2)),
            inserted_next G key value seed, if_pos hj, if_neg hy, if_neg hyu]
      · by_cases hys : y = succSpec s.nodes key es j
        · have hcond2 : y = ((insertedState s key value seed es).nodes s.fresh).next j := by
            rw [hnextq j hj, updSpec_next_eq (G.chainsN j hj15)]
            exact hys
          rw [delnode_prev, if_pos ⟨by rw [hmq]; exact hj, hcond2⟩, hprevq j hj, hys,
            succSpec_prev_eq (G.chainsP j hj15)]
        · rw [delnode_prev,
            if_neg (fun hcond => hys (by
              rw [← updSpec_next_eq (G.chainsN j hj15), ← hnextq j hj]
              exact hcond.2)),
            inserted_prev G key value seed, if_pos hj, if_neg hy,
            if_neg (by rw [updSpec_next_eq (G.chainsN j hj15)]; exact hys)]
    · constructor
      · rw [delnode_next, if_neg (fun hcond => hj (by rw [← hmq]; exact hcond.1)),
          inserted_next G key value seed, if_neg hj, if_neg hy]
      · rw [delnode_prev, if_neg (fun hcond => hj (by rw [← hmq]; exact hcond.1)),
          inserted_prev G key value seed, if_neg hj, if_neg hy]

theorem C9_insert_then_delete_restores_witness :
    (skiplist_delnode w1 1).listLevel = initState.listLevel ∧
    ∀ y, y ≠ 1 → ∀ j,
      ((skiplist_delnode w1 1).nodes y).next j = (initState.nodes y).next j ∧
      ((skiplist_delnode w1 1).nodes y).prev j = (initState.nodes y).prev j :=
  C9_insert_then_delete_restores Reachable.init (by decide) w1eq

/-- Run a batch of inserts (key, value, seed) with the given fuel,
collecting the returned node handles in order. -/
def runInserts : SkipState → List (Nat × Nat × Nat) → Nat → Option (SkipState × List Nat)
  | s, [], _ => some (s, [])
  | s, op :: ops, f =>
    match skiplist_insert s op.1 op.2.1 op.2.2 f with
    | none => none
    | some (s', q) => Option.map (fun r => (r.1, q :: r.2)) (runInserts s' ops f)

/-- Delete a list of handles in order. -/
def runDeletes : SkipState → List Nat → SkipState
  | s, [] => s
  | s, e :: rest => runDeletes (skiplist_delnode s e) rest

theorem runInserts_good : ∀ (ops : List (Nat × Nat × Nat)) (s : SkipState) (es : List Nat)
    (f : Nat) (sfin : SkipState) (hs : List Nat),
    Good s es → runInserts s ops f = some (sfin, hs) →
    ∃ esf, Good sfin esf ∧ esf.Perm (hs ++ es) := by
  intro ops
  induction ops with
  | nil =>
    intro s es f sfin hs G hrun
    rw [runInserts] at hrun
    obtain ⟨h1, h2⟩ := Prod.mk.inj (Option.some_inj.mp hrun)
    subst h1
    subst h2
    exact ⟨es, G, by simpa using List.Perm.refl es⟩
  | cons op ops ih =>
    intro s es f sfin hs G hrun
    rw [runInserts] at hrun
    cases hins : skiplist_insert s op.1 op.2.1 op.2.2 f with
    | none =>
      rw [hins] at hrun
      cases hrun
    | some pr =>
      obtain ⟨s', q⟩ := pr
      rw [hins] at hrun
      have hk : op.1 < U64MAX := by
        by_contra hk2
        rw [insert_bigkey_none G (by omega) op.2.1 op.2.2 f] at hins
        cases hins
      rcases insert_characterize G hk hins with ⟨hs', hq⟩
      subst hs'
      subst hq
      have hrun3 : Option.map (fun r => (r.1, s.fresh :: r.2))
          (runInserts (insertedState s op.1 op.2.1 op.2.2 es) ops f) = some (sfin, hs) := hrun
      cases hrun2 : runInserts (insertedState s op.1 op.2.1 op.2.2 es) ops f with
      | none =>
        rw [hrun2] at hrun3
        cases hrun3
      | some r2 =>
        obtain ⟨sf2, hs2⟩ := r2
        rw [hrun2] at hrun3
        obtain ⟨h1, h2⟩ := Prod.mk.inj (Option.some_inj.mp hrun3)
        subst h1
        subst h2
        have G2 := insert_good G hk op.2.1 op.2.2
        rcases ih _ _ f _ _ G2 hrun2 with ⟨esf, Gf, hperm⟩
        refine ⟨esf, Gf, ?_⟩
        have hstep : (takeLe s.nodes op.1 es ++ s.fresh :: dropLe s.nodes op.1 es).Perm
            (s.fresh :: es) := by
          have hmid := @List.perm_middle Nat s.fresh
            (takeLe s.nodes op.1 es) (dropLe s.nodes op.1 es)
          rw [takeLe_append_dropLe] at hmid
          exact hmid
        have h3 : esf.Perm (hs2 ++ s.fresh :: es) :=
          hperm.trans (List.Perm.append_left hs2 hstep)
        exact h3.trans (@List.perm_middle Nat s.fresh hs2 es)

theorem runDeletes_empty : ∀ (order : List Nat) (s : SkipState) (es : List Nat),
    Good s es → order.Perm es →
    (runDeletes s order).listLevel = 0 ∧
    ∀ k, k < 16 → ((runDeletes s order).nodes sentinelId).next k = sentinelId ∧
      ((runDeletes s order).nodes sentinelId).prev k = sentinelId := by
  intro order
  induction order with
  | nil =>
    intro s es G hperm
    have hes : es = [] := hperm.symm.eq_nil
    subst hes
    rw [runDeletes]
    constructor
    · rw [G.lvlEq]
      rfl
    · intro k hk
      have hN := G.chainsN k (by omega)
      have hP := G.chainsP k (by omega)
      exact ⟨chainNext_nil_next hN, chainPrev_nil_prev hP⟩
  | cons e rest ih =>
    intro s es G hperm
    have hmem : e ∈ es := hperm.subset (List.mem_cons_self _ _)
    have hperm2 : rest.Perm (es.erase e) := (List.cons_perm_iff_perm_erase.mp hperm).2
    rw [runDeletes]
    exact ih _ _ (delnode_good G hmem) hperm2

/-- C7: for every batch of inserts into a fresh list that completes and
returns handles hs, deleting all those handles in any order brings the list
level back to 0 and every one of the sixteen levels' sentinel next and prev
pointers back to self-loops — the empty-list state produced by
construction. -/
theorem C7_delete_all_empties {ops : List (Nat × Nat × Nat)} {f : Nat}
    {s : SkipState} {hs : List Nat}
    (hrun : runInserts initState ops f = some (s, hs))
    {order : List Nat} (hperm : order.Perm hs) :
    (runDeletes s order).listLevel = 0 ∧
    ∀ k, k < 16 → ((runDeletes s order).nodes sentinelId).next k = sentinelId ∧
      ((runDeletes s order).nodes sentinelId).prev k = sentinelId := by
  rcases runInserts_good ops initState [] f s hs good_init hrun with ⟨esf, Gf, hpf⟩
  have hpf2 : esf.Perm hs := by simpa using hpf
  exact runDeletes_empty order s esf Gf (hperm.trans hpf2.symm)

theorem C7_delete_all_empties_witness :
    (runDeletes w2 [2, 1]).listLevel = 0 ∧
    ∀ k, k < 16 → ((runDeletes w2 [2, 1]).nodes sentinelId).next k = sentinelId ∧
      ((runDeletes w2 [2, 1]).nodes sentinelId).prev k = sentinelId :=
  @C7_delete_all_empties [(5, 7, 4), (6, 8, 16)] 10 w2 [1, 2] rfl [2, 1] (by decide)
